import Mathlib

set_option maxRecDepth 8192

/-!
Verification of the InfoJobs scraper (src/src/main.js and the hybrid
variant embedded in src/unnamed/part_000) against its natural-language
specification.  The JavaScript sources are shallowly embedded: pure
functions become Lean functions over a small model of JavaScript values,
DOM query results are abstracted as precomputed document fields, and the
WHATWG URL capability (new URL) is modelled by an executable
parser/serializer on character lists.
-/

/- ## Character-list utilities
   These model JavaScript string splitting (String.prototype.split on the
   first occurrence) and substring search, used by the URL model and by
   the block classifier. -/

/-- Split a character list at the first occurrence of `c`.  Returns the
part before the first `c` and, when `c` occurs, the part after it. -/
def splitFirst (c : Char) : List Char → List Char × Option (List Char)
  | [] => ([], none)
  | x :: xs =>
    if x = c then ([], some xs)
    else
      let r := splitFirst c xs
      (x :: r.1, r.2)

theorem splitFirst_not_mem {c : Char} {l : List Char} (h : c ∉ l) :
    splitFirst c l = (l, none) := by
  induction l with
  | nil => rfl
  | cons x xs ih =>
    have hx : ¬ x = c := fun he => h (he ▸ List.mem_cons_self x xs)
    have hxs : c ∉ xs := fun hm => h (List.mem_cons_of_mem _ hm)
    simp [splitFirst, hx, ih hxs]

theorem splitFirst_append {c : Char} {l₁ l₂ : List Char} (h : c ∉ l₁) :
    splitFirst c (l₁ ++ c :: l₂) = (l₁, some l₂) := by
  induction l₁ with
  | nil => simp [splitFirst]
  | cons x xs ih =>
    have hx : ¬ x = c := fun he => h (he ▸ List.mem_cons_self x xs)
    have hxs : c ∉ xs := fun hm => h (List.mem_cons_of_mem _ hm)
    simp [splitFirst, hx, ih hxs]

theorem splitFirst_eq_none {c : Char} : ∀ {l a : List Char},
    splitFirst c l = (a, none) → l = a ∧ c ∉ a := by
  intro l
  induction l with
  | nil =>
    intro a h
    have h' : (([], none) : List Char × Option (List Char)) = (a, none) := h
    cases h'
    exact ⟨rfl, by simp⟩
  | cons x xs ih =>
    intro a h
    by_cases hx : x = c
    · exfalso
      have h' : (([], some xs) : List Char × Option (List Char)) = (a, none) := by
        rw [← h]; simp [splitFirst, hx]
      exact Option.noConfusion (congrArg Prod.snd h')
    · have h' : (x :: (splitFirst c xs).1, (splitFirst c xs).2) = (a, none) := by
        rw [← h]; simp [splitFirst, hx]
      have h1 : x :: (splitFirst c xs).1 = a := congrArg Prod.fst h'
      have h2 : (splitFirst c xs).2 = none := congrArg Prod.snd h'
      have e : splitFirst c xs = ((splitFirst c xs).1, none) := by
        rw [← h2]
      obtain ⟨ha, hm⟩ := ih e
      subst h1
      refine ⟨congrArg (List.cons x) ha, ?_⟩
      intro hmem
      rcases List.mem_cons.mp hmem with he | hm2
      · exact hx he.symm
      · exact hm hm2

theorem splitFirst_eq_some {c : Char} : ∀ {l a r : List Char},
    splitFirst c l = (a, some r) → l = a ++ c :: r ∧ c ∉ a := by
  intro l
  induction l with
  | nil =>
    intro a r h
    have h' : (([], none) : List Char × Option (List Char)) = (a, some r) := h
    exact Option.noConfusion (congrArg Prod.snd h')
  | cons x xs ih =>
    intro a r h
    by_cases hx : x = c
    · have h' : (([], some xs) : List Char × Option (List Char)) = (a, some r) := by
        rw [← h]; simp [splitFirst, hx]
      have h1 : ([] : List Char) = a := congrArg Prod.fst h'
      have h2' : xs = r := Option.some.inj (congrArg Prod.snd h')
      subst hx
      rw [← h1, ← h2']
      exact ⟨rfl, by simp⟩
    · have h' : (x :: (splitFirst c xs).1, (splitFirst c xs).2) = (a, some r) := by
        rw [← h]; simp [splitFirst, hx]
      have h1 : x :: (splitFirst c xs).1 = a := congrArg Prod.fst h'
      have h2 : (splitFirst c xs).2 = some r := congrArg Prod.snd h'
      have e : splitFirst c xs = ((splitFirst c xs).1, some r) := by
        rw [← h2]
      obtain ⟨ha, hm⟩ := ih e
      subst h1
      constructor
      · rw [List.cons_append]
        exact congrArg (List.cons x) ha
      · intro hmem
        rcases List.mem_cons.mp hmem with he | hm2
        · exact hx he.symm
        · exact hm hm2

theorem not_mem_splitFirst_fst (c : Char) (l : List Char) :
    c ∉ (splitFirst c l).1 := by
  rcases e : splitFirst c l with ⟨a, r⟩
  cases r with
  | none => exact (splitFirst_eq_none e).2
  | some r => exact (splitFirst_eq_some e).2

theorem mem_splitFirst_fst {c x : Char} {l : List Char}
    (h : x ∈ (splitFirst c l).1) : x ∈ l := by
  rcases e : splitFirst c l with ⟨a, r⟩
  rw [e] at h
  cases r with
  | none => rw [(splitFirst_eq_none e).1]; exact h
  | some r =>
    rw [(splitFirst_eq_some e).1]
    exact List.mem_append_left _ h

theorem mem_splitFirst_snd {c x : Char} {l a r : List Char}
    (e : splitFirst c l = (a, some r)) (h : x ∈ r) : x ∈ l := by
  rw [(splitFirst_eq_some e).1]
  exact List.mem_append_right _ (List.mem_cons_of_mem _ h)

theorem mem_splitFirst_snd2 {c x : Char} {l r : List Char}
    (e : (splitFirst c l).2 = some r) (h : x ∈ r) : x ∈ l := by
  have e2 : splitFirst c l = ((splitFirst c l).1, some r) := by
    rw [← e]
  exact mem_splitFirst_snd e2 h

/-- Split a character list at every occurrence of `c` (JavaScript
String.prototype.split with a single-character separator). -/
def splitAll (c : Char) : List Char → List (List Char)
  | [] => [[]]
  | x :: xs =>
    if x = c then [] :: splitAll c xs
    else
      match splitAll c xs with
      | [] => [[x]]
      | h :: t => (x :: h) :: t

theorem splitAll_ne_nil (c : Char) (l : List Char) : splitAll c l ≠ [] := by
  induction l with
  | nil => simp [splitAll]
  | cons x xs ih =>
    by_cases hx : x = c
    · simp [splitAll, hx]
    · simp only [splitAll, hx, if_false]
      rcases e : splitAll c xs with _ | ⟨h, t⟩ <;> simp

theorem splitAll_not_mem {c : Char} {l : List Char} (h : c ∉ l) :
    splitAll c l = [l] := by
  induction l with
  | nil => rfl
  | cons x xs ih =>
    have hx : ¬ x = c := fun he => h (he ▸ List.mem_cons_self x xs)
    have hxs : c ∉ xs := fun hm => h (List.mem_cons_of_mem _ hm)
    simp [splitAll, hx, ih hxs]

theorem splitAll_append {c : Char} {a r : List Char} (h : c ∉ a) :
    splitAll c (a ++ c :: r) = a :: splitAll c r := by
  induction a with
  | nil => simp [splitAll]
  | cons x xs ih =>
    have hx : ¬ x = c := fun he => h (he ▸ List.mem_cons_self x xs)
    have hxs : c ∉ xs := fun hm => h (List.mem_cons_of_mem _ hm)
    rw [List.cons_append]
    simp only [splitAll, hx, if_false]
    rw [ih hxs]

theorem mem_of_mem_splitAll {c x : Char} {s l : List Char}
    (hs : s ∈ splitAll c l) (hx : x ∈ s) : x ∈ l := by
  induction l generalizing s with
  | nil =>
    simp [splitAll] at hs
    subst hs; simp at hx
  | cons y ys ih =>
    by_cases hy : y = c
    · simp only [splitAll, hy, if_pos rfl] at hs
      rcases List.mem_cons.mp hs with he | hm
      · subst he; simp at hx
      · exact List.mem_cons_of_mem _ (ih hm hx)
    · simp only [splitAll, hy, if_false] at hs
      rcases e : splitAll c ys with _ | ⟨h, t⟩
      · exact absurd e (splitAll_ne_nil c ys)
      · rw [e] at hs
        rcases List.mem_cons.mp hs with he | hm
        · subst he
          rcases List.mem_cons.mp hx with hxy | hxh
          · subst hxy; exact List.mem_cons_self _ _
          · exact List.mem_cons_of_mem _ (ih (e ▸ List.mem_cons_self h t) hxh)
        · exact List.mem_cons_of_mem _ (ih (e ▸ List.mem_cons_of_mem _ hm) hx)

theorem sep_not_mem_splitAll {c : Char} {s l : List Char}
    (hs : s ∈ splitAll c l) : c ∉ s := by
  induction l generalizing s with
  | nil =>
    simp [splitAll] at hs
    subst hs; simp
  | cons y ys ih =>
    by_cases hy : y = c
    · simp only [splitAll, hy, if_pos rfl] at hs
      rcases List.mem_cons.mp hs with he | hm
      · subst he; simp
      · exact ih hm
    · simp only [splitAll, hy, if_false] at hs
      rcases e : splitAll c ys with _ | ⟨h, t⟩
      · exact absurd e (splitAll_ne_nil c ys)
      · rw [e] at hs
        rcases List.mem_cons.mp hs with he | hm
        · subst he
          intro hmem
          rcases List.mem_cons.mp hmem with hcy | hch
          · exact hy hcy.symm
          · exact ih (e ▸ List.mem_cons_self h t) hch
        · exact ih (e ▸ List.mem_cons_of_mem _ hm)

/-- Join character lists with a single-character separator (the inverse
of `splitAll`; models Array.prototype.join). -/
def joinSep (c : Char) : List (List Char) → List Char
  | [] => []
  | [s] => s
  | s :: rest => s ++ c :: joinSep c rest

theorem splitAll_joinSep {c : Char} {segs : List (List Char)}
    (hne : segs ≠ []) (hall : ∀ s ∈ segs, c ∉ s) :
    splitAll c (joinSep c segs) = segs := by
  induction segs with
  | nil => exact absurd rfl hne
  | cons s rest ih =>
    cases rest with
    | nil =>
      simp only [joinSep]
      exact splitAll_not_mem (hall s (List.mem_cons_self s []))
    | cons s2 t =>
      have hjoin : joinSep c (s :: s2 :: t) = s ++ c :: joinSep c (s2 :: t) := rfl
      rw [hjoin, splitAll_append (hall s (List.mem_cons_self _ _))]
      rw [ih (by simp) (fun x hx => hall x (List.mem_cons_of_mem _ hx))]

theorem not_mem_joinSep {c x : Char} {segs : List (List Char)}
    (hx : x ≠ c) (hall : ∀ s ∈ segs, x ∉ s) : x ∉ joinSep c segs := by
  induction segs with
  | nil => simp [joinSep]
  | cons s rest ih =>
    cases rest with
    | nil => exact hall s (List.mem_cons_self s [])
    | cons s2 t =>
      have hjoin : joinSep c (s :: s2 :: t) = s ++ c :: joinSep c (s2 :: t) := rfl
      rw [hjoin]
      intro hmem
      rcases List.mem_append.mp hmem with hm | hm
      · exact hall s (List.mem_cons_self _ _) hm
      · rcases List.mem_cons.mp hm with he | hm2
        · exact hx he
        · exact ih (fun u hu => hall u (List.mem_cons_of_mem _ hu)) hm2

theorem mem_dropWhile_sub {p : Char → Bool} {x : Char} {l : List Char}
    (h : x ∈ l.dropWhile p) : x ∈ l := by
  induction l with
  | nil => simp at h
  | cons y ys ih =>
    by_cases hy : p y = true
    · rw [List.dropWhile_cons_of_pos hy] at h
      exact List.mem_cons_of_mem _ (ih h)
    · rw [List.dropWhile_cons_of_neg hy] at h
      exact h

/- ## JavaScript value model
   A small model of JavaScript runtime values, enough to embed the
   record manipulation of the scraper faithfully: `undef` is the undefined
   value (a key mapped to it disappears under JSON serialization), and
   truthiness follows JavaScript. -/

inductive JSVal where
  | undef
  | null
  | bool (b : Bool)
  | num (n : Int)
  | str (s : String)
  | arr (elems : List JSVal)
  | obj (fields : List (String × JSVal))

/-- JavaScript truthiness. -/
def truthy : JSVal → Bool
  | .undef => false
  | .null => false
  | .bool b => b
  | .num n => if n = 0 then false else true
  | .str s => if s = "" then false else true
  | .arr _ => true
  | .obj _ => true

/-- JavaScript `a || b`. -/
def jsOr (a b : JSVal) : JSVal := if truthy a then a else b

/-- JavaScript `a && b`. -/
def jsAnd (a b : JSVal) : JSVal := if truthy a then b else a

def objGet : List (String × JSVal) → String → JSVal
  | [], _ => .undef
  | (k, v) :: rest, key => if k = key then v else objGet rest key

/-- JavaScript property access `v.k` (undefined on non-objects). -/
def getProp : JSVal → String → JSVal
  | .obj fs, k => objGet fs k
  | _, _ => (.undef)

/-- JavaScript optional chaining `v?.k`. -/
def getOpt (v : JSVal) (k : String) : JSVal :=
  match v with
  | .undef => .undef
  | .null => .undef
  | w => getProp w k

def isUndefV : JSVal → Bool
  | .undef => true
  | _ => false

def asStrV : JSVal → Option String
  | .str s => some s
  | _ => none

/-- JavaScript strict equality restricted to primitives; two distinct
object or array literals are never identical (reference equality), which
matches how the Set-based dedup of the scraper behaves on freshly parsed
items. -/
def jsEqPrim : JSVal → JSVal → Bool
  | .undef, .undef => true
  | .null, .null => true
  | .bool a, .bool b => a = b
  | .num a, .num b => a = b
  | .str a, .str b => a = b
  | _, _ => false

def memJS (v : JSVal) (l : List JSVal) : Bool := l.any (jsEqPrim v)

/-- String coercion of a value (approximate for arrays and objects; the
scraper only coerces strings and numbers on the paths modelled here). -/
def jsToString : JSVal → String
  | .undef => "undefined"
  | .null => "null"
  | .bool b => if b then "true" else "false"
  | .num n => toString n
  | .str s => s
  | .arr _ => ""
  | .obj _ => "[object Object]"

/-- The keys of an object whose values survive JSON serialization
(undefined-valued keys are dropped by JSON.stringify). -/
def jsonKeys : JSVal → List String
  | .obj fs => (fs.filter (fun p => !isUndefV p.2)).map (·.1)
  | _ => []

/- ## String helpers modelling the JavaScript string operations used. -/

/-- Does `hay` start with `needle`? -/
def leadsWith : List Char → List Char → Bool
  | [], _ => true
  | _ :: _, [] => false
  | n :: ns, h :: hs => n = h && leadsWith ns hs

/-- Does `hay` contain `needle` as a contiguous substring?  Models
JavaScript String.prototype.includes. -/
def containsL (needle : List Char) : List Char → Bool
  | [] => leadsWith needle []
  | h :: hs => leadsWith needle (h :: hs) || containsL needle hs

/-- ASCII lower-casing of a string, modelling the effect of JavaScript
toLowerCase() on the ASCII range the block markers live in. -/
def lowerStr (s : String) : List Char := s.toList.map Char.toLower

def isWsB (c : Char) : Bool := c = ' ' || c = '\t' || c = '\n' || c = '\r'

/-- Collapse every whitespace run to a single space; the Bool argument
records whether the previous character was whitespace. -/
def collapseWs : Bool → List Char → List Char
  | _, [] => []
  | prevWs, c :: rest =>
    if isWsB c then
      if prevWs then collapseWs true rest else ' ' :: collapseWs true rest
    else c :: collapseWs false rest

def trimWsL (l : List Char) : List Char :=
  ((l.dropWhile isWsB).reverse.dropWhile isWsB).reverse

/-- Embeds `stripWhitespace` from src/src/main.js line 442: collapse whitespace
runs to single spaces and trim the ends. -/
def stripWhitespace (s : String) : String :=
  (trimWsL (collapseWs false s.toList)).asString

/-- JavaScript String.prototype.trim. -/
def trimS (s : String) : String := (trimWsL s.toList).asString

/-- JavaScript `s.slice(0, n)`. -/
def takeS (s : String) (n : Nat) : String := (s.toList.take n).asString

/-- JavaScript Array.prototype.join. -/
def joinStrSep (sep : String) : List String → String
  | [] => ""
  | [x] => x
  | x :: rest => x ++ sep ++ joinStrSep sep rest

/-- A model of cheerio text extraction composed with `stripHtml`
(src/src/main.js line 438): markup tags are dropped and whitespace is
collapsed.  The HTML parser itself is an external capability; this model
removes angle-bracketed runs, which is exact on markup without nested or
quoted angle brackets. -/
def dropTags : Bool → List Char → List Char
  | _, [] => []
  | inTag, c :: rest =>
    if inTag then
      if c = '>' then dropTags false rest else dropTags true rest
    else
      if c = '<' then dropTags true rest else c :: dropTags false rest

def stripHtml (s : String) : String :=
  stripWhitespace (dropTags false s.toList).asString

def stripHtmlVal (v : JSVal) : JSVal := .str (stripHtml (jsToString v))

/- ## URL model
   The scraper consumes the WHATWG URL capability (`new URL(href, base)`
   and `.href`).  We model a URL as scheme, host (including any port),
   path (the characters after the first slash following the host), parsed
   query pairs, and an optional fragment, with an executable parser and
   serializer.  Percent-encoding is not modelled; this covers every URL
   the scraper manufactures and the job-board URLs it consumes. -/

structure UrlM where
  scheme : List Char
  host : List Char
  path : List Char
  query : List (List Char × List Char)
  frag : Option (List Char)
deriving DecidableEq

def schemeCharB (c : Char) : Bool :=
  c.isAlpha || c.isDigit || c = '+' || c = '-' || c = '.'

def schemeOkB (s : List Char) : Bool := !s.isEmpty && s.all schemeCharB

def hostCharB (c : Char) : Bool := !(c = '/' || c = '?' || c = '#')

def pathCharB (c : Char) : Bool := !(c = '?' || c = '#')

def nameCharB (c : Char) : Bool := !(c = '&' || c = '=' || c = '#')

def valCharB (c : Char) : Bool := !(c = '&' || c = '#')

def queryOkB (q : List (List Char × List Char)) : Bool :=
  q.all (fun p => p.1.all nameCharB && p.2.all valCharB)

/-- Well-formedness of a URL value: exactly the invariants the parser
guarantees of its output, and what the serializer needs to be a section
of the parser. -/
def wfUrl (u : UrlM) : Bool :=
  schemeOkB u.scheme && u.host.all hostCharB && u.path.all pathCharB &&
    queryOkB u.query

/-- One query segment: the part before the first equals sign is the name,
the rest the value (absent value parses as the empty value). -/
def segParse (seg : List Char) : List Char × List Char :=
  ((splitFirst '=' seg).1, ((splitFirst '=' seg).2).getD [])

def parseQueryL : Option (List Char) → List (List Char × List Char)
  | none => []
  | some q => if q.isEmpty then [] else (splitAll '&' q).map segParse

def pairStrL (p : List Char × List Char) : List Char := p.1 ++ '=' :: p.2

def queryStrL (ps : List (List Char × List Char)) : List Char :=
  match ps with
  | [] => []
  | _ :: _ => '?' :: joinSep '&' (ps.map pairStrL)

def fragStrL : Option (List Char) → List Char
  | none => []
  | some f => '#' :: f

def urlHrefL (u : UrlM) : List Char :=
  u.scheme ++ ':' :: '/' :: '/' ::
    (u.host ++ '/' :: (u.path ++ queryStrL u.query ++ fragStrL u.frag))

def urlHrefS (u : UrlM) : String := (urlHrefL u).asString

/-- Split the part following the authority into path-or-host section,
query pairs, and fragment: first the fragment is cut at the first hash,
then the query at the first question mark. -/
def splitPQF (l : List Char) :
    List Char × List (List Char × List Char) × Option (List Char) :=
  let bfr := splitFirst '#' l
  let bq := splitFirst '?' bfr.1
  (bq.1, parseQueryL bq.2, bfr.2)

def parseUrlL (s : List Char) : Option UrlM :=
  match (splitFirst ':' s).2 with
  | none => none
  | some rest =>
    if leadsWith ['/', '/'] rest ∧ schemeOkB (splitFirst ':' s).1 = true then
      let rest2 := rest.drop 2
      let pqf := splitPQF rest2
      let hp := splitFirst '/' pqf.1
      some ⟨(splitFirst ':' s).1, hp.1, hp.2.getD [], pqf.2.1, pqf.2.2⟩
    else none

def parseUrlS (s : String) : Option UrlM := parseUrlL s.toList

/-- The directory part of a path: everything up to and including the last
slash (empty when the path has no slash). -/
def dirOf (p : List Char) : List Char :=
  (p.reverse.dropWhile (fun c => !(c = '/'))).reverse

/-- Resolution of a relative reference against a parsed base, modelling
the WHATWG resolution the scraper relies on: protocol-relative,
root-relative and directory-relative references (dot-segment
normalization is not modelled; the scraper never produces dot
segments). -/
def resolveRel (href : List Char) (b : UrlM) : UrlM :=
  if leadsWith ['/', '/'] href then
    let rest2 := href.drop 2
    let pqf := splitPQF rest2
    let hp := splitFirst '/' pqf.1
    ⟨b.scheme, hp.1, hp.2.getD [], pqf.2.1, pqf.2.2⟩
  else if leadsWith ['/'] href then
    let pqf := splitPQF (href.drop 1)
    ⟨b.scheme, b.host, pqf.1, pqf.2.1, pqf.2.2⟩
  else
    let pqf := splitPQF href
    ⟨b.scheme, b.host, dirOf b.path ++ pqf.1, pqf.2.1, pqf.2.2⟩

/-- Embeds `toAbs` from src/src/main.js lines 500-506: `new URL(href, base).href`
with null on a parse failure.  The WHATWG constructor parses the base
first and fails when it is not an absolute URL. -/
def toAbs (href base : String) : Option String :=
  match parseUrlS base with
  | none => none
  | some b =>
    match parseUrlL href.toList with
    | some u => some (urlHrefS u)
    | none => some (urlHrefS (resolveRel href.toList b))

/-- JavaScript `s.split('?')[0]`. -/
def stripQueryS (s : String) : String := ((splitFirst '?' s.toList).1).asString

/-- The link normalizer used by both list-extraction paths
(src/src/main.js lines 316 and 616-619): resolve to an absolute URL and
drop everything from the first question mark on. -/
def normalizeLink (href base : String) : Option String :=
  (toAbs href base).map stripQueryS

/- ## URL parser/serializer lemmas -/

theorem ne_of_pred {p : Char → Bool} {c d : Char} (hc : p c = true)
    (hd : p d = false) : c ≠ d := by
  intro h
  rw [h, hd] at hc
  exact Bool.noConfusion hc

theorem not_mem_of_all {p : Char → Bool} {l : List Char}
    (h : l.all p = true) {c : Char} (hc : p c = false) : c ∉ l := by
  intro hm
  have := List.all_eq_true.mp h c hm
  rw [hc] at this
  exact Bool.noConfusion this

theorem pairStrL_ne_nil (p : List Char × List Char) : pairStrL p ≠ [] := by
  rcases p with ⟨n, v⟩
  cases n <;> simp [pairStrL]

theorem joinSep_ne_nil {c : Char} {s : List Char} {rest : List (List Char)}
    (hs : s ≠ []) : joinSep c (s :: rest) ≠ [] := by
  cases rest with
  | nil => simpa [joinSep] using hs
  | cons s2 t =>
    have : joinSep c (s :: s2 :: t) = s ++ c :: joinSep c (s2 :: t) := rfl
    rw [this]
    cases s with
    | nil => simp
    | cons x xs => simp

theorem amp_not_mem_pairStrL {p : List Char × List Char}
    (hn : p.1.all nameCharB = true) (hv : p.2.all valCharB = true) :
    '&' ∉ pairStrL p := by
  rcases p with ⟨n, v⟩
  intro hm
  rcases List.mem_append.mp hm with h | h
  · exact not_mem_of_all hn (by decide) h
  · rcases List.mem_cons.mp h with he | h2
    · exact absurd he (by decide)
    · exact not_mem_of_all hv (by decide) h2

theorem hash_not_mem_pairStrL {p : List Char × List Char}
    (hn : p.1.all nameCharB = true) (hv : p.2.all valCharB = true) :
    '#' ∉ pairStrL p := by
  rcases p with ⟨n, v⟩
  intro hm
  rcases List.mem_append.mp hm with h | h
  · exact not_mem_of_all hn (by decide) h
  · rcases List.mem_cons.mp h with he | h2
    · exact absurd he (by decide)
    · exact not_mem_of_all hv (by decide) h2

theorem segParse_pairStrL {p : List Char × List Char}
    (hn : p.1.all nameCharB = true) : segParse (pairStrL p) = p := by
  rcases p with ⟨n, v⟩
  have hne : '=' ∉ n := not_mem_of_all hn (by decide)
  simp [segParse, pairStrL, splitFirst_append hne]

theorem map_segParse_pairStrL {ps : List (List Char × List Char)}
    (h : queryOkB ps = true) : (ps.map pairStrL).map segParse = ps := by
  induction ps with
  | nil => rfl
  | cons p rest ih =>
    have hp := List.all_eq_true.mp h p (List.mem_cons_self p rest)
    have hrest : queryOkB rest = true :=
      List.all_eq_true.mpr fun x hx =>
        List.all_eq_true.mp h x (List.mem_cons_of_mem _ hx)
    simp only [List.map_cons]
    rw [segParse_pairStrL (Bool.and_elim_left hp), ih hrest]

theorem parseQuery_roundtrip {ps : List (List Char × List Char)}
    (h : queryOkB ps = true) (hne : ps ≠ []) :
    parseQueryL (some (joinSep '&' (ps.map pairStrL))) = ps := by
  rcases ps with _ | ⟨p, rest⟩
  · exact absurd rfl hne
  · have hjoin_ne : joinSep '&' (pairStrL p :: rest.map pairStrL) ≠ [] :=
      joinSep_ne_nil (pairStrL_ne_nil p)
    have hall : ∀ s ∈ (p :: rest).map pairStrL, '&' ∉ s := by
      intro s hs
      rcases List.mem_map.mp hs with ⟨q, hq, he⟩
      have hqok := List.all_eq_true.mp h q hq
      exact he ▸ amp_not_mem_pairStrL (Bool.and_elim_left hqok)
        (Bool.and_elim_right hqok)
    simp only [parseQueryL, List.map_cons]
    rw [if_neg (by simpa [List.isEmpty_iff] using hjoin_ne)]
    rw [show (pairStrL p :: List.map pairStrL rest) =
          ((p :: rest).map pairStrL) from rfl] at hjoin_ne ⊢
    rw [splitAll_joinSep (by simp) hall]
    exact map_segParse_pairStrL h

theorem hash_not_mem_queryStrL {ps : List (List Char × List Char)}
    (h : queryOkB ps = true) : '#' ∉ queryStrL ps := by
  cases ps with
  | nil => simp [queryStrL]
  | cons p rest =>
    simp only [queryStrL]
    intro hm
    rcases List.mem_cons.mp hm with he | h2
    · exact absurd he (by decide)
    · refine not_mem_joinSep (by decide) ?_ h2
      intro s hs
      rcases List.mem_map.mp hs with ⟨q, hq, he2⟩
      have hqok := List.all_eq_true.mp h q hq
      exact he2 ▸ hash_not_mem_pairStrL (Bool.and_elim_left hqok)
        (Bool.and_elim_right hqok)

theorem not_mem_append_cons {x c : Char} {l1 l2 : List Char}
    (h1 : x ∉ l1) (hc : x ≠ c) (h2 : x ∉ l2) : x ∉ l1 ++ c :: l2 := by
  intro hm
  rcases List.mem_append.mp hm with h | h
  · exact h1 h
  · rcases List.mem_cons.mp h with he | hm2
    · exact hc he
    · exact h2 hm2

theorem not_mem_append {x : Char} {l1 l2 : List Char}
    (h1 : x ∉ l1) (h2 : x ∉ l2) : x ∉ l1 ++ l2 := by
  intro hm
  rcases List.mem_append.mp hm with h | h
  · exact h1 h
  · exact h2 h

theorem splitPQF_roundtrip {host path : List Char}
    {q : List (List Char × List Char)} (fr : Option (List Char))
    (hhost : host.all hostCharB = true) (hpath : path.all pathCharB = true)
    (hq : queryOkB q = true) :
    splitPQF (host ++ '/' :: (path ++ queryStrL q ++ fragStrL fr)) =
      (host ++ '/' :: path, q, fr) := by
  have hhash_host : '#' ∉ host := not_mem_of_all hhost (by decide)
  have hhash_path : '#' ∉ path := not_mem_of_all hpath (by decide)
  have hq_host : '?' ∉ host := not_mem_of_all hhost (by decide)
  have hq_path : '?' ∉ path := not_mem_of_all hpath (by decide)
  have hhash_qs : '#' ∉ queryStrL q := hash_not_mem_queryStrL hq
  have hhash_bf : '#' ∉ host ++ '/' :: (path ++ queryStrL q) :=
    not_mem_append_cons hhash_host (by decide)
      (not_mem_append hhash_path hhash_qs)
  have step1 :
      splitFirst '#' (host ++ '/' :: (path ++ queryStrL q ++ fragStrL fr)) =
        (host ++ '/' :: (path ++ queryStrL q), fr) := by
    cases fr with
    | none =>
      rw [show fragStrL none = [] from rfl, List.append_nil]
      exact splitFirst_not_mem hhash_bf
    | some f =>
      have e : host ++ '/' :: (path ++ queryStrL q ++ fragStrL (some f)) =
          (host ++ '/' :: (path ++ queryStrL q)) ++ '#' :: f := by
        simp [fragStrL, List.append_assoc]
      rw [e, splitFirst_append hhash_bf]
  simp only [splitPQF]
  rw [step1]
  cases q with
  | nil =>
    have hq_bf : '?' ∉ host ++ '/' :: (path ++ queryStrL []) := by
      rw [show queryStrL [] = [] from rfl, List.append_nil]
      exact not_mem_append_cons hq_host (by decide) hq_path
    rw [splitFirst_not_mem hq_bf]
    simp [parseQueryL, queryStrL]
  | cons p rest =>
    have e2 : host ++ '/' :: (path ++ queryStrL (p :: rest)) =
        (host ++ '/' :: path) ++ '?' :: joinSep '&' ((p :: rest).map pairStrL) := by
      simp [queryStrL, List.append_assoc]
    have hq_pre : '?' ∉ host ++ '/' :: path :=
      not_mem_append_cons hq_host (by decide) hq_path
    rw [e2, splitFirst_append hq_pre]
    simp only
    rw [parseQuery_roundtrip hq (by simp)]

theorem not_mem_cons {x c : Char} {l : List Char} (hc : x ≠ c) (h : x ∉ l) :
    x ∉ c :: l := by
  intro hm
  rcases List.mem_cons.mp hm with he | hm2
  · exact hc he
  · exact h hm2

theorem splitPQF_fst_chars {l : List Char} {x : Char}
    (h : x ∈ (splitPQF l).1) : ¬ x = '?' ∧ ¬ x = '#' := by
  have h' : x ∈ (splitFirst '?' (splitFirst '#' l).1).1 := h
  constructor
  · intro he
    subst he
    exact not_mem_splitFirst_fst '?' _ h'
  · intro he
    subst he
    exact not_mem_splitFirst_fst '#' l (mem_splitFirst_fst h')

theorem segParse_ok {seg : List Char} (hamp : '&' ∉ seg) (hhash : '#' ∉ seg) :
    ((segParse seg).1.all nameCharB && (segParse seg).2.all valCharB) = true := by
  rw [Bool.and_eq_true]
  constructor
  · apply List.all_eq_true.mpr
    intro x hx
    have hx' : x ∈ (splitFirst '=' seg).1 := hx
    have h1 : x ∈ seg := mem_splitFirst_fst hx'
    have h2 : ¬ x = '=' := fun he => not_mem_splitFirst_fst '=' seg (he ▸ hx')
    have h3 : ¬ x = '&' := fun he => hamp (he ▸ h1)
    have h4 : ¬ x = '#' := fun he => hhash (he ▸ h1)
    simp [nameCharB, h2, h3, h4]
  · rcases e : (splitFirst '=' seg).2 with _ | v
    · have h0 : (segParse seg).2 = [] := by simp [segParse, e]
      rw [h0]
      rfl
    · have h0 : (segParse seg).2 = v := by simp [segParse, e]
      rw [h0]
      apply List.all_eq_true.mpr
      intro x hx
      have h1 : x ∈ seg := mem_splitFirst_snd2 e hx
      have h3 : ¬ x = '&' := fun he => hamp (he ▸ h1)
      have h4 : ¬ x = '#' := fun he => hhash (he ▸ h1)
      simp [valCharB, h3, h4]

theorem parseQueryL_ok {ql : List Char} (hhash : '#' ∉ ql) :
    queryOkB (parseQueryL (some ql)) = true := by
  simp only [parseQueryL]
  by_cases he : ql.isEmpty
  · rw [if_pos he]
    rfl
  · rw [if_neg he]
    apply List.all_eq_true.mpr
    intro p hp
    rcases List.mem_map.mp hp with ⟨seg, hseg, hpe⟩
    have hamp : '&' ∉ seg := sep_not_mem_splitAll hseg
    have hh : '#' ∉ seg := fun hm => hhash (mem_of_mem_splitAll hseg hm)
    exact hpe ▸ segParse_ok hamp hh

theorem splitPQF_query_ok (l : List Char) : queryOkB (splitPQF l).2.1 = true := by
  have e1 : (splitPQF l).2.1 =
      parseQueryL (splitFirst '?' (splitFirst '#' l).1).2 := rfl
  rw [e1]
  rcases e : (splitFirst '?' (splitFirst '#' l).1).2 with _ | ql
  · rfl
  · apply parseQueryL_ok
    intro hm
    exact not_mem_splitFirst_fst '#' l (mem_splitFirst_snd2 e hm)

theorem pqf_path_ok (l : List Char) : ((splitPQF l).1).all pathCharB = true := by
  apply List.all_eq_true.mpr
  intro x hx
  have hc := splitPQF_fst_chars hx
  simp [pathCharB, hc.1, hc.2]

theorem hostSplit_host_ok (l : List Char) :
    ((splitFirst '/' (splitPQF l).1).1).all hostCharB = true := by
  apply List.all_eq_true.mpr
  intro x hx
  have hx1 : x ∈ (splitPQF l).1 := mem_splitFirst_fst hx
  have hc := splitPQF_fst_chars hx1
  have hsl : ¬ x = '/' := fun he => not_mem_splitFirst_fst '/' _ (he ▸ hx)
  simp [hostCharB, hsl, hc.1, hc.2]

theorem hostSplit_path_ok (l : List Char) :
    (((splitFirst '/' (splitPQF l).1).2).getD []).all pathCharB = true := by
  rcases e : (splitFirst '/' (splitPQF l).1).2 with _ | p
  · rfl
  · apply List.all_eq_true.mpr
    intro x hx
    have hx1 : x ∈ (splitPQF l).1 := mem_splitFirst_snd2 e hx
    have hc := splitPQF_fst_chars hx1
    simp [pathCharB, hc.1, hc.2]

theorem mem_dirOf_sub {x : Char} {p : List Char} (h : x ∈ dirOf p) : x ∈ p := by
  simp only [dirOf] at h
  rw [List.mem_reverse] at h
  have h2 := mem_dropWhile_sub h
  rwa [List.mem_reverse] at h2

theorem parseUrl_href {u : UrlM} (h : wfUrl u = true) :
    parseUrlL (urlHrefL u) = some u := by
  have h' := h
  simp only [wfUrl, Bool.and_eq_true] at h'
  obtain ⟨⟨⟨hs, hh⟩, hp⟩, hq⟩ := h'
  have hs' := hs
  simp only [schemeOkB, Bool.and_eq_true] at hs'
  obtain ⟨hsne, hsall⟩ := hs'
  have hcolon : ':' ∉ u.scheme := not_mem_of_all hsall (by decide)
  have hslash : '/' ∉ u.host := not_mem_of_all hh (by decide)
  have e1 : splitFirst ':' (urlHrefL u) =
      (u.scheme, some ('/' :: '/' ::
        (u.host ++ '/' :: (u.path ++ queryStrL u.query ++ fragStrL u.frag)))) := by
    rw [show urlHrefL u = u.scheme ++ ':' :: ('/' :: '/' ::
        (u.host ++ '/' :: (u.path ++ queryStrL u.query ++ fragStrL u.frag)))
      from rfl]
    exact splitFirst_append hcolon
  have epqf := splitPQF_roundtrip u.frag hh hp hq
  have ehp : splitFirst '/' (u.host ++ '/' :: u.path) = (u.host, some u.path) :=
    splitFirst_append hslash
  simp only [parseUrlL, e1, leadsWith, List.drop, epqf, ehp, hs]
  rfl

theorem parseUrl_wf {s : List Char} {u : UrlM} (h : parseUrlL s = some u) :
    wfUrl u = true := by
  simp only [parseUrlL] at h
  rcases e : (splitFirst ':' s).2 with _ | rest
  · rw [e] at h
    exact Option.noConfusion h
  · rw [e] at h
    have h2 : (if leadsWith ['/', '/'] rest ∧ schemeOkB (splitFirst ':' s).1 = true
        then some (⟨(splitFirst ':' s).1,
          (splitFirst '/' (splitPQF (rest.drop 2)).1).1,
          ((splitFirst '/' (splitPQF (rest.drop 2)).1).2).getD [],
          (splitPQF (rest.drop 2)).2.1,
          (splitPQF (rest.drop 2)).2.2⟩ : UrlM)
        else none) = some u := h
    by_cases hc : leadsWith ['/', '/'] rest ∧ schemeOkB (splitFirst ':' s).1 = true
    · rw [if_pos hc] at h2
      have hu := Option.some.inj h2
      subst hu
      simp only [wfUrl, Bool.and_eq_true]
      refine ⟨⟨⟨hc.2, ?_⟩, ?_⟩, ?_⟩
      · exact hostSplit_host_ok _
      · exact hostSplit_path_ok _
      · exact splitPQF_query_ok _
    · rw [if_neg hc] at h2
      exact Option.noConfusion h2

theorem resolveRel_wf {href : List Char} {b : UrlM} (hb : wfUrl b = true) :
    wfUrl (resolveRel href b) = true := by
  have hb' := hb
  simp only [wfUrl, Bool.and_eq_true] at hb'
  obtain ⟨⟨⟨hbs, hbh⟩, hbp⟩, hbq⟩ := hb'
  simp only [resolveRel]
  by_cases h1 : leadsWith ['/', '/'] href
  · rw [if_pos h1]
    simp only [wfUrl, Bool.and_eq_true]
    exact ⟨⟨⟨hbs, hostSplit_host_ok _⟩, hostSplit_path_ok _⟩, splitPQF_query_ok _⟩
  · rw [if_neg h1]
    by_cases h2 : leadsWith ['/'] href
    · rw [if_pos h2]
      simp only [wfUrl, Bool.and_eq_true]
      exact ⟨⟨⟨hbs, hbh⟩, pqf_path_ok _⟩, splitPQF_query_ok _⟩
    · rw [if_neg h2]
      simp only [wfUrl, Bool.and_eq_true]
      refine ⟨⟨⟨hbs, hbh⟩, ?_⟩, splitPQF_query_ok _⟩
      rw [List.all_append, Bool.and_eq_true]
      constructor
      · apply List.all_eq_true.mpr
        intro x hx
        exact List.all_eq_true.mp hbp x (mem_dirOf_sub hx)
      · exact pqf_path_ok _

theorem strip_urlHref {u : UrlM} (h : wfUrl u = true) :
    ∃ u2 : UrlM, wfUrl u2 = true ∧
      (splitFirst '?' (urlHrefL u)).1 = urlHrefL u2 ∧ '?' ∉ urlHrefL u2 := by
  have h' := h
  simp only [wfUrl, Bool.and_eq_true] at h'
  obtain ⟨⟨⟨hs, hh⟩, hp⟩, hq⟩ := h'
  have hs2 := hs
  simp only [schemeOkB, Bool.and_eq_true] at hs2
  obtain ⟨hsne, hsall⟩ := hs2
  have hq_scheme : '?' ∉ u.scheme := not_mem_of_all hsall (by decide)
  have hq_host : '?' ∉ u.host := not_mem_of_all hh (by decide)
  have hq_path : '?' ∉ u.path := not_mem_of_all hp (by decide)
  cases hq0 : u.query with
  | cons p rest =>
    refine ⟨⟨u.scheme, u.host, u.path, [], none⟩, ?_, ?_, ?_⟩
    · simp only [wfUrl, Bool.and_eq_true]
      exact ⟨⟨⟨hs, hh⟩, hp⟩, rfl⟩
    · have hqA : '?' ∉ u.scheme ++ ':' :: '/' :: '/' :: (u.host ++ '/' :: u.path) :=
        not_mem_append_cons hq_scheme (by decide)
          (not_mem_cons (by decide) (not_mem_cons (by decide)
            (not_mem_append_cons hq_host (by decide) hq_path)))
      have e : urlHrefL u =
          (u.scheme ++ ':' :: '/' :: '/' :: (u.host ++ '/' :: u.path)) ++
            '?' :: (joinSep '&' ((p :: rest).map pairStrL) ++ fragStrL u.frag) := by
        simp [urlHrefL, hq0, queryStrL, List.append_assoc]
      rw [e, splitFirst_append hqA]
      simp [urlHrefL, queryStrL, fragStrL, List.append_assoc]
    · simp only [urlHrefL, queryStrL, fragStrL, List.append_nil]
      exact not_mem_append_cons hq_scheme (by decide)
        (not_mem_cons (by decide) (not_mem_cons (by decide)
          (not_mem_append_cons hq_host (by decide) hq_path)))
  | nil =>
    cases hf0 : u.frag with
    | none =>
      have hqall : '?' ∉ urlHrefL u := by
        have e : urlHrefL u =
            u.scheme ++ ':' :: '/' :: '/' :: (u.host ++ '/' :: u.path) := by
          simp [urlHrefL, hq0, hf0, queryStrL, fragStrL]
        rw [e]
        exact not_mem_append_cons hq_scheme (by decide)
          (not_mem_cons (by decide) (not_mem_cons (by decide)
            (not_mem_append_cons hq_host (by decide) hq_path)))
      refine ⟨u, h, ?_, hqall⟩
      rw [splitFirst_not_mem hqall]
    | some f =>
      rcases ef : splitFirst '?' f with ⟨f1, fr2⟩
      cases fr2 with
      | none =>
        obtain ⟨hf_eq, hf_not⟩ := splitFirst_eq_none ef
        have hf_not2 : '?' ∉ f := hf_eq ▸ hf_not
        have hqall : '?' ∉ urlHrefL u := by
          have e : urlHrefL u = u.scheme ++ ':' :: '/' :: '/' ::
              (u.host ++ '/' :: (u.path ++ '#' :: f)) := by
            simp [urlHrefL, hq0, hf0, queryStrL, fragStrL]
          rw [e]
          exact not_mem_append_cons hq_scheme (by decide)
            (not_mem_cons (by decide) (not_mem_cons (by decide)
              (not_mem_append_cons hq_host (by decide)
                (not_mem_append_cons hq_path (by decide) hf_not2))))
        refine ⟨u, h, ?_, hqall⟩
        rw [splitFirst_not_mem hqall]
      | some f2 =>
        obtain ⟨hf_eq, hf_not⟩ := splitFirst_eq_some ef
        refine ⟨⟨u.scheme, u.host, u.path, [], some f1⟩, ?_, ?_, ?_⟩
        · simp only [wfUrl, Bool.and_eq_true]
          exact ⟨⟨⟨hs, hh⟩, hp⟩, rfl⟩
        · have hqA : '?' ∉ u.scheme ++ ':' :: '/' :: '/' ::
              (u.host ++ '/' :: (u.path ++ '#' :: f1)) :=
            not_mem_append_cons hq_scheme (by decide)
              (not_mem_cons (by decide) (not_mem_cons (by decide)
                (not_mem_append_cons hq_host (by decide)
                  (not_mem_append_cons hq_path (by decide) hf_not))))
          have e : urlHrefL u =
              (u.scheme ++ ':' :: '/' :: '/' ::
                (u.host ++ '/' :: (u.path ++ '#' :: f1))) ++ '?' :: f2 := by
            simp [urlHrefL, hq0, hf0, hf_eq, queryStrL, fragStrL,
              List.append_assoc]
          rw [e, splitFirst_append hqA]
          simp [urlHrefL, queryStrL, fragStrL, List.append_assoc]
        · simp only [urlHrefL, queryStrL, fragStrL, List.append_nil]
          exact not_mem_append_cons hq_scheme (by decide)
            (not_mem_cons (by decide) (not_mem_cons (by decide)
              (not_mem_append_cons hq_host (by decide)
                (not_mem_append_cons hq_path (by decide) hf_not))))

theorem toList_asString (l : List Char) : (List.asString l).toList = l := rfl

theorem normalizeLink_eq_some {href base n : String}
    (h : normalizeLink href base = some n) :
    ∃ B u2, parseUrlS base = some B ∧ wfUrl u2 = true ∧
      n = urlHrefS u2 ∧ '?' ∉ urlHrefL u2 := by
  simp only [normalizeLink, toAbs] at h
  rcases eB : parseUrlS base with _ | B
  · rw [eB] at h
    exact Option.noConfusion h
  · rw [eB] at h
    have hBwf : wfUrl B = true := parseUrl_wf eB
    rcases eu : parseUrlL href.toList with _ | u
    · rw [eu] at h
      have hwf : wfUrl (resolveRel href.toList B) = true := resolveRel_wf hBwf
      obtain ⟨u2, hwf2, heq, hnq⟩ := strip_urlHref hwf
      have hn : n = stripQueryS (urlHrefS (resolveRel href.toList B)) :=
        (Option.some.inj h).symm
      refine ⟨B, u2, rfl, hwf2, ?_, hnq⟩
      rw [hn]
      simp only [stripQueryS, urlHrefS, toList_asString]
      rw [heq]
    · rw [eu] at h
      have hwf : wfUrl u = true := parseUrl_wf eu
      obtain ⟨u2, hwf2, heq, hnq⟩ := strip_urlHref hwf
      have hn : n = stripQueryS (urlHrefS u) := (Option.some.inj h).symm
      refine ⟨B, u2, rfl, hwf2, ?_, hnq⟩
      rw [hn]
      simp only [stripQueryS, urlHrefS, toList_asString]
      rw [heq]

/-- Core idempotence fact for the link normalizer: a normalized link
re-normalizes to itself. -/
theorem normalizeLink_idem {href base n : String}
    (h : normalizeLink href base = some n) : normalizeLink n base = some n := by
  obtain ⟨B, u2, hB, hwf2, hn, hnq⟩ := normalizeLink_eq_some h
  subst hn
  have hparse : parseUrlL (urlHrefS u2).toList = some u2 := by
    rw [show (urlHrefS u2).toList = urlHrefL u2 from rfl]
    exact parseUrl_href hwf2
  have hstrip : stripQueryS (urlHrefS u2) = urlHrefS u2 := by
    simp only [stripQueryS, urlHrefS, toList_asString]
    rw [splitFirst_not_mem hnq]
  simp only [normalizeLink, toAbs, hB, hparse]
  rw [Option.map_some', hstrip]

/- ## src/src/main.js embeddings -/

/-- Embeds `BLOCK_MARKERS` from src/src/main.js lines 19-27. -/
def BLOCK_MARKERS : List String :=
  ["captcha", "distil", "geetest", "hemos detectado un uso inusual",
   "javascript is enabled", "are you human", "eres humano o un robot"]

/-- Embeds `isBlocked` from src/src/main.js lines 508-511: lower-case the body
and test every marker for containment. -/
def isBlocked (html : String) : Bool :=
  BLOCK_MARKERS.any (fun m => containsL m.toList (lowerStr html))

/-- An anchor-like element as the DOM queries `a[href], [data-href]` see
it: its `href` and `data-href` attributes (`none` when absent). -/
structure AnchorEl where
  href : Option String
  dataHref : Option String

/-- JavaScript attribute-read chains `a || b || ...` falling back to the
empty string. -/
def firstTruthyS : List (Option String) → String
  | [] => ""
  | some s :: rest => if s = "" then firstTruthyS rest else s
  | none :: rest => firstTruthyS rest

/-- The scheme filter `/^(mailto:|tel:|javascript:)/i` of the link
extractors. -/
def badScheme (h : String) : Bool :=
  leadsWith "mailto:".toList (lowerStr h) ||
    leadsWith "tel:".toList (lowerStr h) ||
    leadsWith "javascript:".toList (lowerStr h)

def lalnum (c : Char) : Bool :=
  ('a' ≤ c.toLower && c.toLower ≤ 'z') || ('0' ≤ c && c ≤ '9')

def ofTail : List Char → Bool
  | c1 :: c2 :: c3 :: c4 :: _ => lalnum c1 && lalnum c2 && lalnum c3 && lalnum c4
  | _ => false

def startsOfSeg : List Char → Bool
  | '/' :: a :: b :: '-' :: t => a.toLower = 'o' && b.toLower = 'f' && ofTail t
  | _ => false

/-- The job-link test `/\/of-[a-z0-9]{4,}/i` of both list extractors. -/
def hasOfPattern : List Char → Bool
  | [] => false
  | c :: rest => startsOfSeg (c :: rest) || hasOfPattern rest

/-- First-insertion-order deduplication, modelling
`Array.from(new Set(xs))`. -/
def dedupKeepFirst (l : List String) : List String :=
  l.foldl (fun acc x => if x ∈ acc then acc else acc ++ [x]) []

theorem mem_dedup_foldl (l : List String) :
    ∀ (acc : List String) (x : String),
      (x ∈ l.foldl (fun acc y => if y ∈ acc then acc else acc ++ [y]) acc ↔
        x ∈ acc ∨ x ∈ l) := by
  induction l with
  | nil => intro acc x; simp
  | cons y ys ih =>
    intro acc x
    simp only [List.foldl_cons]
    by_cases hy : y ∈ acc
    · rw [if_pos hy, ih]
      constructor
      · rintro (h | h)
        · exact Or.inl h
        · exact Or.inr (List.mem_cons_of_mem _ h)
      · rintro (h | h)
        · exact Or.inl h
        · rcases List.mem_cons.mp h with he | hm
          · exact Or.inl (he ▸ hy)
          · exact Or.inr hm
    · rw [if_neg hy, ih]
      constructor
      · rintro (h | h)
        · rcases List.mem_append.mp h with hm | hm
          · exact Or.inl hm
          · simp at hm
            exact Or.inr (hm ▸ List.mem_cons_self y ys)
        · exact Or.inr (List.mem_cons_of_mem _ h)
      · rintro (h | h)
        · exact Or.inl (List.mem_append_left _ h)
        · rcases List.mem_cons.mp h with he | hm
          · exact Or.inl (List.mem_append_right _ (by simp [he]))
          · exact Or.inr hm

theorem mem_dedupKeepFirst {x : String} {l : List String} :
    x ∈ dedupKeepFirst l ↔ x ∈ l := by
  rw [dedupKeepFirst, mem_dedup_foldl]
  simp

theorem dedupKeepFirst_ne_nil {l : List String} (h : l ≠ []) :
    dedupKeepFirst l ≠ [] := by
  rcases l with _ | ⟨y, t⟩
  · exact absurd rfl h
  · exact List.ne_nil_of_mem (mem_dedupKeepFirst.mpr (List.mem_cons_self y t))

/-- The anchor loop of `extractJobLinksCheerio`, src/src/main.js lines
308-317: read the href or data-href attribute (empty-string fallback),
skip empty, mailto/tel/javascript
and non-job links, resolve and strip the query string. -/
def collectJobLinks (anchors : List AnchorEl) (base : String) : List String :=
  anchors.foldl (fun acc el =>
    let href := firstTruthyS [el.href, el.dataHref]
    if href = "" then acc
    else if badScheme href then acc
    else if !hasOfPattern href.toList then acc
    else
      match toAbs href base with
      | some abs => acc ++ [stripQueryS abs]
      | none => acc) []

/-- Embeds `extractJobLinksCheerio` from src/src/main.js lines 308-319. -/
def extractJobLinksCheerio (anchors : List AnchorEl) (base : String) :
    List String :=
  dedupKeepFirst (collectJobLinks anchors base)

/-- The in-page `$$eval` collector of the Playwright list handler,
src/src/main.js lines 604-614: same filters, deduplicated as raw hrefs. -/
def collectRawOfLinks (anchors : List AnchorEl) : List String :=
  anchors.foldl (fun acc el =>
    let href := firstTruthyS [el.href, el.dataHref]
    if href = "" then acc
    else if badScheme href then acc
    else if !hasOfPattern href.toList then acc
    else if href ∈ acc then acc
    else acc ++ [href]) []

/-- Lines 616-619: `jobLinks.map(toAbs).filter(Boolean).map(split('?'))`. -/
def playwrightExtractLinks (anchors : List AnchorEl) (url : String) :
    List String :=
  ((collectRawOfLinks anchors).filterMap (fun h => toAbs h url)).map stripQueryS

/-- The frontier accumulators shared by the two list phases: the detail
candidate Set and the run-wide seen-URL Set. -/
structure OfferState where
  candidates : List String
  seen : List String

/-- The detail-link offer loop of src/src/main.js lines 169-174 (and the
identical loop at lines 621-626): stop at the candidate cap, skip links
already in the seen-set of the run when dedup is on, otherwise add to the
candidate Set and record in the seen-set. -/
def offerLinks (dedupe : Bool) (cap : Nat) :
    OfferState → List String → OfferState
  | st, [] => st
  | st, link :: rest =>
    if cap ≤ st.candidates.length then st
    else if dedupe ∧ link ∈ st.seen then offerLinks dedupe cap st rest
    else
      offerLinks dedupe cap
        { candidates :=
            if link ∈ st.candidates then st.candidates
            else st.candidates ++ [link],
          seen :=
            if dedupe then
              if link ∈ st.seen then st.seen else st.seen ++ [link]
            else st.seen } rest

/-- A fetched list document as the list handlers see it: raw body text,
the anchor elements, and the href of a "Siguiente" (next-page) affordance
when present. -/
structure ListDoc where
  html : String
  anchors : List AnchorEl
  nextHref : Option String

def allDigits (l : List Char) : Bool :=
  !l.isEmpty && l.all (fun c => '0' ≤ c && c ≤ '9')

def digitsToNat (l : List Char) : Nat :=
  l.foldl (fun acc c => acc * 10 + (c.toNat - '0'.toNat)) 0

/-- JavaScript `Number(s)` on strings, for the values the pagination code
feeds it: whitespace-trimmed integer strings (the empty string is 0,
anything else is NaN, modelled as `none`). -/
def jsNumberStr (s : String) : Option Int :=
  let t := trimWsL s.toList
  if t.isEmpty then some 0
  else if allDigits t then some (digitsToNat t)
  else
    match t with
    | '-' :: rest => if allDigits rest then some (-(digitsToNat rest : Int)) else none
    | _ => none

/-- Embeds `searchParams.get`: the value of the first pair with the given name. -/
def searchGet : List (List Char × List Char) → List Char → Option (List Char)
  | [], _ => none
  | (k', v) :: rest, k => if k' = k then some v else searchGet rest k

/-- Embeds `searchParams.set`: replace the value of the first pair with the given
name and drop any later pairs of that name; append when absent. -/
def searchSet : List (List Char × List Char) → List Char → List Char →
    List (List Char × List Char)
  | [], k, v => [(k, v)]
  | (k', v') :: rest, k, v =>
    if k' = k then (k, v) :: rest.filter (fun p => !decide (p.1 = k))
    else (k', v') :: searchSet rest k v

/-- The URL-synthesis fallback of `findNextPageCheerio`, src/src/main.js
lines 327-334: `page` defaults to 1 (Number of the raw value, with null
and the empty string falling back to 1), is incremented,
and written back through `searchParams.set`. -/
def nextPageUrl (u : UrlM) : UrlM :=
  let cur : Option Int :=
    match searchGet u.query "page".toList with
    | none => some 1
    | some s => if s.isEmpty then some 1 else jsNumberStr s.asString
  let nextStr : List Char :=
    match cur with
    | some n => (toString (n + 1)).toList
    | none => "NaN".toList
  { u with query := searchSet u.query "page".toList nextStr }

/-- Embeds `findNextPageCheerio` from src/src/main.js lines 321-335: prefer the
"Siguiente" affordance when it resolves; otherwise synthesize the
successor by incrementing the `page` query parameter; null when the base
URL cannot be parsed. -/
def findNextPageCheerio (doc : ListDoc) (base : String) : Option String :=
  let fallback : Option String :=
    match parseUrlS base with
    | some u => some (urlHrefS (nextPageUrl u))
    | none => none
  match doc.nextHref with
  | some h =>
    if h = "" then fallback
    else
      match toAbs h base with
      | some a => some a
      | none => fallback
  | none => fallback

/-- Embeds `normalizeJobRecord` from src/src/main.js lines 417-436: the fixed
output schema.  `url`, `id` and `title` are passed through as-is (only
`id` falls back to `url`); every other content field defaults to null;
`source` defaults to "infojobs"; `scraped_at` is the capture time. -/
def normalizeJobRecord (job : JSVal) (now : String) : JSVal :=
  .obj [
    ("url", getProp job "url"),
    ("id", jsOr (getProp job "id") (getProp job "url")),
    ("title", getProp job "title"),
    ("company", jsOr (getProp job "company") .null),
    ("location", jsOr (getProp job "location") .null),
    ("province", jsOr (getProp job "province") .null),
    ("city", jsOr (getProp job "city") .null),
    ("salary", jsOr (getProp job "salary") .null),
    ("job_type", jsOr (getProp job "job_type") .null),
    ("date_posted", jsOr (getProp job "date_posted") .null),
    ("remote", jsOr (getProp job "remote") .null),
    ("description_html", jsOr (getProp job "description_html") .null),
    ("description_text", jsOr (getProp job "description_text") .null),
    ("source", jsOr (getProp job "source") (.str "infojobs")),
    ("scraped_at", .str now)]

/-- A fetched detail document as `extractJobFromDetail` queries it.  The
cheerio selector reads are abstracted as precomputed fields: `scripts`
holds the JSON.parse result of each `script[type="application/ld+json"]`
element (`none` for empty text or a parse failure — JSON parsing is the
external capability); the text reads are the selector text contents
(empty string when the selector matches nothing); the attribute and
`.html()` reads are JavaScript values (`undef` for a missing attribute,
`null` for `.html()` on an empty selection). -/
structure DetailDoc where
  html : String
  scripts : List (Option JSVal)
  h1 : String
  ogTitle : JSVal
  companySel : String
  locationSel : String
  ijCity : JSVal
  timeDatetime : JSVal
  jobDescriptionHtml : JSVal
  offerDescHtml : JSVal
  jobDescriptionText : String
  offerDescText : String
  bodyText : String

/-- The hiringOrganization read: the value itself when it is a string,
else its optional name field
(src/src/main.js lines 399-402). -/
def jsonLdCompany (j : JSVal) : JSVal :=
  match getProp j "hiringOrganization" with
  | .str s => .str s
  | other => getOpt other "name"

/-- Embeds `jobLocation?.address?.addressLocality || ...Region || ...Country`
(src/src/main.js lines 403-406). -/
def jsonLdLocation (j : JSVal) : JSVal :=
  let addr := getOpt (getProp j "jobLocation") "address"
  jsOr (getOpt addr "addressLocality")
    (jsOr (getOpt addr "addressRegion") (getOpt addr "addressCountry"))

def jsonLdFromItem (j : JSVal) : JSVal :=
  .obj [("title", getProp j "title"),
        ("description_html", getProp j "description"),
        ("company", jsonLdCompany j),
        ("location", jsonLdLocation j),
        ("date_posted", getProp j "datePosted")]

/-- Strict equality test of the at-type field against "JobPosting". -/
def isJobPostingType (d : JSVal) : Bool :=
  jsEqPrim (getProp d "@type") (.str "JobPosting")

/-- Embeds `parseJsonLdJob` from src/src/main.js lines 386-415: walk the JSON-LD
scripts, skip unparseable ones, wrap non-arrays, pick the `JobPosting`
entry or the first element, and project the record fields. -/
def parseJsonLdJob : List (Option JSVal) → Option JSVal
  | [] => none
  | none :: rest => parseJsonLdJob rest
  | some data :: rest =>
    let arr := match data with
      | .arr xs => xs
      | d => [d]
    let job := match arr.find? isJobPostingType with
      | some j => some j
      | none => arr.head?
    match job with
    | some j => if truthy j then some (jsonLdFromItem j) else parseJsonLdJob rest
    | none => parseJsonLdJob rest

def firstNonEmptyStr : List String → String
  | [] => ""
  | s :: rest => if s = "" then firstNonEmptyStr rest else s

/-- Embeds `extractJobFromDetail` from src/src/main.js lines 337-384: JSON-LD
first, then DOM markers, then meta fallbacks, assembled through
`normalizeJobRecord`. -/
def extractJobFromDetail (doc : DetailDoc) (url now : String) : JSVal :=
  let jsonLd := (parseJsonLdJob doc.scripts).getD (.obj [])
  let title := jsOr (getProp jsonLd "title")
    (jsOr (.str (trimS doc.h1)) (jsOr doc.ogTitle .null))
  let company := jsOr (getProp jsonLd "company")
    (jsOr (.str (trimS doc.companySel)) .null)
  let location := jsOr (getProp jsonLd "location")
    (jsOr (.str (trimS doc.locationSel)) (jsOr doc.ijCity .null))
  let date := jsOr (getProp jsonLd "date_posted") (jsOr doc.timeDatetime .null)
  let descHtml := jsOr (getProp jsonLd "description_html")
    (jsOr doc.jobDescriptionHtml (jsOr doc.offerDescHtml .null))
  let descTextRaw := stripWhitespace
    (firstNonEmptyStr [doc.jobDescriptionText, doc.offerDescText, doc.bodyText])
  normalizeJobRecord (.obj [
    ("url", .str url),
    ("title", title),
    ("company", company),
    ("location", location),
    ("date_posted", date),
    ("description_html", descHtml),
    ("description_text",
      if descTextRaw = "" then .null else .str (takeS descTextRaw 6000)),
    ("source", .str "infojobs-html")]) now

structure Cfg where
  keyword : String
  location : String
  category : String
  startUrl : JSVal
  startUrls : JSVal
  collectDetails : Bool
  dedupe : Bool
  maxItems : Nat
  maxPages : Nat
  pageSize : Nat

structure HtmlState where
  saved : Nat
  blocked : Nat
  seenUrls : List String

structure ListPhase where
  hs : HtmlState
  detailCandidates : List String
  visitedListPages : List String

/-- The Cheerio list request handler, src/src/main.js lines 155-182: the
block check runs first and short-circuits everything; otherwise links are
extracted, offered to the frontier, and a next page may be enqueued. -/
def cheerioListHandler (cfg : Cfg) (ps : ListPhase) (doc : ListDoc)
    (pageIdx : Nat) (base : String) : ListPhase × Option (String × Nat) :=
  if isBlocked doc.html then
    ({ ps with hs := { ps.hs with blocked := ps.hs.blocked + 1 } }, none)
  else
    let links := extractJobLinksCheerio doc.anchors base
    let off := offerLinks cfg.dedupe (cfg.maxItems * 3)
      ⟨ps.detailCandidates, ps.hs.seenUrls⟩ links
    let ps1 : ListPhase :=
      { hs := { ps.hs with seenUrls := off.seen },
        detailCandidates := off.candidates,
        visitedListPages := ps.visitedListPages }
    if cfg.maxPages ≤ pageIdx ∨ cfg.maxItems ≤ ps1.hs.saved then (ps1, none)
    else
      match findNextPageCheerio doc base with
      | some nxt =>
        if nxt ∈ ps1.visitedListPages then (ps1, none)
        else ({ ps1 with visitedListPages := ps1.visitedListPages ++ [nxt] },
          some (nxt, pageIdx + 1))
      | none => (ps1, none)

inductive DetailOutcome where
  | capReached
  | blockedPage
  | skippedNoTitle
  | savedRecord
deriving DecidableEq

/-- The detail request handlers of src/src/main.js (lines 204-223 and
674-688 are identical in the modelled respects): target check, block
check, extraction, and a skip-with-log when no title was extracted.
Every branch returns normally — the crawler retries only handlers that
throw, so none of these outcomes is ever retried. -/
def detailHandler (cfg : Cfg) (st : HtmlState) (doc : DetailDoc)
    (url now : String) : HtmlState × Option JSVal × DetailOutcome :=
  if cfg.maxItems ≤ st.saved then (st, none, .capReached)
  else if isBlocked doc.html then
    ({ st with blocked := st.blocked + 1 }, none, .blockedPage)
  else
    let job := extractJobFromDetail doc url now
    if truthy (getProp job "title") then
      ({ st with saved := st.saved + 1 }, some job, .savedRecord)
    else (st, none, .skippedNoTitle)

/-- The Playwright list request handler, src/src/main.js lines 576-643:
links are collected in-page and offered to the frontier, and a next page
may be enqueued.  The handler performs no block classification — this is
the faithful embedding of the source, which has no `isBlocked` call on
this path. -/
def playwrightListHandler (cfg : Cfg) (detailUrls seenUrls : List String)
    (doc : ListDoc) (url : String) (currentPage : Nat) :
    OfferState × Option (String × Nat) :=
  let absLinks := playwrightExtractLinks doc.anchors url
  let off := offerLinks cfg.dedupe (cfg.maxItems * 3) ⟨detailUrls, seenUrls⟩
    absLinks
  let nextReq :=
    if cfg.maxItems * 2 ≤ off.candidates.length ∨ cfg.maxPages ≤ currentPage
    then none
    else
      match doc.nextHref with
      | some h =>
        if h = "" then none
        else (toAbs h url).map (fun a => (a, currentPage + 1))
      | none => none
  (off, nextReq)

/-- Embeds `buildLocation` from src/src/main.js lines 494-498. -/
def buildLocation (item : JSVal) : JSVal :=
  if truthy item = false then .null
  else
    let parts := [getProp item "city", getOpt (getProp item "province") "value",
      getOpt (getProp item "country") "value"].filter (fun v => truthy v)
    let joined := joinStrSep ", " (parts.map jsToString)
    if joined = "" then .null else .str joined

/-- The record the API harvest pushes for one item, src/src/main.js lines
112-127 (`detail` is the fetched detail body, `{}` when detail collection
is off or the fetch failed). -/
def apiPayload (item detail : JSVal) (now : String) : JSVal :=
  normalizeJobRecord (.obj [
    ("url", getProp item "link"),
    ("id", getProp item "id"),
    ("title", getProp item "title"),
    ("company", jsOr (getOpt (getProp item "author") "name")
      (jsOr (getOpt (getProp item "company") "name")
        (getOpt (getProp item "profile") "name"))),
    ("location", buildLocation item),
    ("province", getOpt (getProp item "province") "value"),
    ("city", getProp item "city"),
    ("salary", jsOr (getProp item "salaryDescription") (getProp item "salaryMin")),
    ("job_type", jsOr (getOpt (getProp item "contractType") "value")
      (getOpt (getProp item "workDay") "value")),
    ("date_posted", jsOr (getProp item "published") (getProp item "updateDate")),
    ("remote", getOpt (getProp item "teleworking") "value"),
    ("description_html", getProp detail "description"),
    ("description_text",
      if truthy (getProp detail "description") then
        stripHtmlVal (getProp detail "description")
      else .null),
    ("source", .str "infojobs-api")]) now

structure ApiState where
  saved : Nat
  seenIds : List JSVal
  seenUrls : List JSVal
  pushed : List JSVal

/-- The per-item loop of `runApiHarvest`, src/src/main.js lines 94-131:
break at the target, skip seen ids/links under dedup, then push the
normalized payload and count it. -/
def apiInner (cfg : Cfg) (now : String) :
    ApiState → List (JSVal × JSVal) → ApiState
  | st, [] => st
  | st, (item, detailBody) :: rest =>
    if cfg.maxItems ≤ st.saved then st
    else
      let idv := getProp item "id"
      let linkv := getProp item "link"
      if cfg.dedupe ∧ (memJS idv st.seenIds || memJS linkv st.seenUrls) = true
      then apiInner cfg now st rest
      else
        let st1 := if cfg.dedupe then
            { st with
                seenIds := st.seenIds ++ [idv],
                seenUrls := st.seenUrls ++ [linkv] }
          else st
        let detail := if cfg.collectDetails then detailBody else JSVal.obj []
        apiInner cfg now
          { st1 with
              pushed := st1.pushed ++ [apiPayload item detail now],
              saved := st1.saved + 1 } rest

/-- The page loop of `runApiHarvest`, src/src/main.js lines 76-135: loop
while the target is unmet and the page ceiling not exceeded, stopping on
an empty page.  `pages` are the item lists (with their detail bodies) the
API returns. -/
def runApiHarvestM (cfg : Cfg) (now : String) :
    Nat → ApiState → List (List (JSVal × JSVal)) → ApiState
  | _, st, [] => st
  | page, st, items :: rest =>
    if cfg.maxItems ≤ st.saved ∨ cfg.maxPages < page then st
    else if items.isEmpty then st
    else runApiHarvestM cfg now (page + 1) (apiInner cfg now st items) rest

def apiState0 : ApiState := ⟨0, [], [], []⟩

def runApiHarvest (cfg : Cfg) (now : String)
    (pages : List (List (JSVal × JSVal))) : ApiState :=
  runApiHarvestM cfg now 1 apiState0 pages

/- ### Seed URL construction (src/src/main.js lines 446-492) -/

/-- Modelled: the Unicode NFD decomposition + combining-mark removal of
`slugify`, for the Latin letters the target site uses; identity
elsewhere. -/
def deAccent (c : Char) : Char :=
  if c = 'á' then 'a' else if c = 'é' then 'e' else if c = 'í' then 'i'
  else if c = 'ó' then 'o' else if c = 'ú' then 'u' else if c = 'ü' then 'u'
  else if c = 'ñ' then 'n' else if c = 'Á' then 'a' else if c = 'É' then 'e'
  else if c = 'Í' then 'i' else if c = 'Ó' then 'o' else if c = 'Ú' then 'u'
  else if c = 'Ü' then 'u' else if c = 'Ñ' then 'n' else c

def slugKeep (c : Char) : Bool := ('a' ≤ c && c ≤ 'z') || ('0' ≤ c && c ≤ '9')

/-- Embeds `replace(/[^a-z0-9]+/g, '-')`: collapse non-alphanumeric runs into a
single dash (the Bool records whether we are inside such a run). -/
def slugCore : Bool → List Char → List Char
  | _, [] => []
  | prevDash, c :: rest =>
    if slugKeep c then c :: slugCore false rest
    else if prevDash then slugCore true rest
    else '-' :: slugCore true rest

/-- The final slugify step: strip leading and trailing dashes. -/
def trimDashes (l : List Char) : List Char :=
  ((l.dropWhile (fun c => c = '-')).reverse.dropWhile (fun c => c = '-')).reverse

/-- Embeds `slugify` from src/src/main.js lines 476-482. -/
def slugify (s : String) : String :=
  (trimDashes (slugCore false ((s.toList.map Char.toLower).map deAccent))).asString

/-- Embeds `buildSeoSearchUrl` from src/src/main.js lines 474-492. -/
def buildSeoSearchUrl (keyword location category : String) : String :=
  let base := "https://www.infojobs.net/ofertas-trabajo"
  let kw := slugify keyword
  let loc := slugify location
  let cat := slugify category
  if loc ≠ "" ∧ kw ≠ "" ∧ cat ≠ "" then
    base ++ "/" ++ loc ++ "/" ++ cat ++ "/" ++ kw
  else if loc ≠ "" ∧ kw ≠ "" then base ++ "/" ++ loc ++ "/" ++ kw
  else if kw ≠ "" then base ++ "/" ++ kw
  else base

/-- The seed read: a string is taken as-is, an object contributes its
url, requests or href field
(src/src/main.js line 450). -/
def rawUrlVal : JSVal → JSVal
  | .str s => .str s
  | other => jsOr (getProp other "url")
      (jsOr (getProp other "requests") (getProp other "href"))

/-- Embeds `addIfValid` from src/src/main.js lines 448-458: accept a string or
an object carrying `url`/`requests`/`href`, resolve it against the site
origin, and keep it only when the URL constructor accepts it. -/
def addIfValid (urls : List String) (raw : JSVal) : List String :=
  if truthy raw = false then urls
  else
    let u := rawUrlVal raw
    if truthy u = false then urls
    else
      match toAbs (jsToString u) "https://www.infojobs.net" with
      | some abs => urls ++ [abs]
      | none => urls

/-- Embeds `buildStartUrls` from src/src/main.js lines 446-472. -/
def buildStartUrls (cfg : Cfg) : List String :=
  let urls := match cfg.startUrls with
    | .arr xs => xs.foldl addIfValid []
    | _ => []
  let urls := addIfValid urls cfg.startUrl
  let urls := if urls = [] ∧ (cfg.keyword ≠ "" ∨ cfg.location ≠ "") then
      urls ++ [buildSeoSearchUrl cfg.keyword cfg.location cfg.category]
    else urls
  let urls :=
    if urls = [] then urls ++ ["https://www.infojobs.net/ofertas-trabajo"]
    else urls
  dedupKeepFirst urls

/- ## src/unnamed/part_000 embeddings (the hybrid pipeline variant) -/

/-- The bot-detection test of the hybrid request handler, part_000 line
521: two case-sensitive substring tests on the body text. -/
def hybridBlocked (bodyText : String) : Bool :=
  containsL "We can\x27t identify your browser".toList bodyText.toList ||
    containsL "JavaScript is enabled".toList bodyText.toList

/-- part_000 lines 392-393: `@type`-or-`type`, matching "JobPosting"
directly or inside an array. -/
def isJobPostingHybrid (e : JSVal) : Bool :=
  truthy e &&
    (let t := jsOr (getProp e "@type") (getProp e "type")
     jsEqPrim t (.str "JobPosting") ||
       (match t with
        | .arr xs => xs.any (fun x => jsEqPrim x (.str "JobPosting"))
        | _ => false))

/-- part_000 lines 394-401: the projected JSON-LD fields (null-defaulted,
unlike the main.js variant). -/
def hybridLdFields (e : JSVal) : JSVal :=
  .obj [("title", jsOr (getProp e "title") (jsOr (getProp e "name") .null)),
        ("company", jsOr (getOpt (getProp e "hiringOrganization") "name") .null),
        ("date_posted", jsOr (getProp e "datePosted") .null),
        ("description_html", jsOr (getProp e "description") .null),
        ("location", jsOr (jsAnd (getProp e "jobLocation")
          (jsAnd (getProp (getProp e "jobLocation") "address")
            (jsOr (getProp (getProp (getProp e "jobLocation") "address")
                "addressLocality")
              (getProp (getProp (getProp e "jobLocation") "address")
                "addressRegion")))) .null)]

/-- Embeds `extractFromJsonLd` from part_000 lines 384-409.  One try/catch wraps
the whole loop, so the first unparseable script aborts the helper
(returning null), unlike the per-script recovery in main.js. -/
def extractFromJsonLdHybrid : List (Option JSVal) → Option JSVal
  | [] => none
  | none :: _ => none
  | some parsed :: rest =>
    let arr := match parsed with
      | .arr xs => xs
      | d => [d]
    match arr.find? isJobPostingHybrid with
    | some e => some (hybridLdFields e)
    | none => extractFromJsonLdHybrid rest

/-- A detail document as `extractJobDetails` (part_000 lines 303-382)
queries it.  The `$('*').filter(...)` heuristic selectors are abstracted
as the text of the first matching element, already trimmed, with the
empty string when nothing matches; `descHtml` is the inner HTML of the
first element whose text exceeds 100 characters. -/
structure HybridDoc where
  bodyText : String
  scripts : List (Option JSVal)
  h1 : String
  h2 : String
  titleClass : String
  h3 : String
  emLink : String
  companyClass : String
  pipeText : String
  salaryText : String
  contractText : String
  dateText : String
  descHtml : Option String

/-- JavaScript `s.split('|').map(p => p.trim())`. -/
def splitPipeTrim (s : String) : List String :=
  (splitAll '|' s.toList).map (fun l => trimS (l.asString))

/-- Embeds `cleanText` from part_000 lines 180-185 (script/style removal is part
of the external HTML capability; tags are dropped and whitespace
collapsed). -/
def cleanText (s : String) : String := stripHtml s

/-- Embeds `extractJobDetails` from part_000 lines 303-382: JSON-LD assignment
first, then per-field DOM fallbacks; `salary` and `date_posted` are
written unconditionally. -/
def extractJobDetails (doc : HybridDoc) : JSVal :=
  let ld := extractFromJsonLdHybrid doc.scripts
  let g := fun (k : String) =>
    match ld with
    | none => JSVal.undef
    | some j => getProp j k
  let title :=
    if truthy (g "title") then g "title"
    else jsOr (.str (trimS doc.h1))
      (jsOr (.str (trimS doc.h2)) (jsOr (.str (trimS doc.titleClass)) .null))
  let company :=
    if truthy (g "company") then g "company"
    else jsOr (.str (trimS doc.h3))
      (jsOr (.str (trimS doc.emLink)) (jsOr (.str (trimS doc.companyClass)) .null))
  let location :=
    if truthy (g "location") then g "location"
    else if doc.pipeText = "" then g "location"
    else
      let h := (splitPipeTrim doc.pipeText).headD ""
      if h = "" then .null else .str h
  let salary := if doc.salaryText = "" then JSVal.null else .str doc.salaryText
  let jobType :=
    if doc.contractText = "" then g "job_type"
    else
      let joined := joinStrSep " | "
        ((splitPipeTrim doc.contractText).filter (fun p => p ≠ ""))
      if joined = "" then JSVal.null else .str joined
  let datePosted := if doc.dateText = "" then JSVal.null else .str doc.dateText
  let desc : JSVal × JSVal :=
    if truthy (g "description_html") then (g "description_html", g "description_text")
    else
      match doc.descHtml with
      | some dh => (.str (trimS dh), .str (cleanText (trimS dh)))
      | none => (g "description_html", g "description_text")
  .obj [("title", title), ("company", company), ("location", location),
        ("salary", salary), ("job_type", jobType), ("date_posted", datePosted),
        ("description_html", desc.1), ("description_text", desc.2)]

/-- The DETAIL branch of the hybrid request handler, part_000 lines
519-530 and 580-610: a bot-detection match throws (which the crawler
retries); otherwise, past the target the request is skipped; otherwise
the extracted record is pushed with every field null-defaulted —
including `title` — and the saved count incremented. -/
def hybridDetailHandler (resultsWanted saved : Nat) (doc : HybridDoc)
    (url category : String) : Except String (Nat × Option JSVal) :=
  if hybridBlocked doc.bodyText then
    .error "Bot detection - cookies refreshed, retrying"
  else if resultsWanted ≤ saved then .ok (saved, none)
  else
    let data := extractJobDetails doc
    let item := JSVal.obj [
      ("title", jsOr (getProp data "title") .null),
      ("company", jsOr (getProp data "company") .null),
      ("category", if category = "" then JSVal.null else .str category),
      ("location", jsOr (getProp data "location") .null),
      ("salary", jsOr (getProp data "salary") .null),
      ("job_type", jsOr (getProp data "job_type") .null),
      ("date_posted", jsOr (getProp data "date_posted") .null),
      ("description_html", jsOr (getProp data "description_html") .null),
      ("description_text", jsOr (getProp data "description_text") .null),
      ("url", .str url)]
    .ok (saved + 1, some item)

/-- JavaScript `parseInt(s)` for the strings the hybrid pagination feeds
it: leading decimal digits after whitespace, NaN (`none`) otherwise. -/
def parseIntStr (s : String) : Option Int :=
  let t := s.toList.dropWhile isWsB
  let ds := t.takeWhile (fun c => '0' ≤ c && c ≤ '9')
  if ds.isEmpty then none else some (digitsToNat ds)

/-- The URL-synthesis fallback of the hybrid `findNextPage`, part_000
lines 453-459: parseInt of the raw page value (defaulting to 1) plus one,
written back through
`searchParams.set`. -/
def nextPageUrlHybrid (u : UrlM) : UrlM :=
  let cur : Option Int :=
    match searchGet u.query "page".toList with
    | none => some 1
    | some s => if s.isEmpty then some 1 else parseIntStr s.asString
  let nextStr : List Char :=
    match cur with
    | some n => (toString (n + 1)).toList
    | none => "NaN".toList
  { u with query := searchSet u.query "page".toList nextStr }

/-- Embeds `toAbs` from part_000 lines 170-178: null for a falsy href, hrefs
already starting with "http" pass through verbatim, anything else is
resolved by the URL constructor. -/
def toAbsHybrid (href base : String) : Option String :=
  if href = "" then none
  else if leadsWith "http".toList href.toList then some href
  else toAbs href base

/-- Embeds `findNextPage` from part_000 lines 443-464: prefer the "siguiente"
link (returned even when resolution fails), else synthesize the
incremented `page` parameter; null when the base URL cannot be parsed. -/
def findNextPageHybrid (doc : ListDoc) (base : String) : Option String :=
  match doc.nextHref with
  | some h =>
    if h = "" then (parseUrlS base).map (fun u => urlHrefS (nextPageUrlHybrid u))
    else toAbsHybrid h base
  | none => (parseUrlS base).map (fun u => urlHrefS (nextPageUrlHybrid u))

/-- Embeds `maxConcurrency` of the hybrid CheerioCrawler, part_000 line 483. -/
def hybridMaxConcurrency : Nat := 10

/-- The size of the URL-only batch one hybrid LIST handler decides to
push, computed from the saved count it observes before its awaited
`Dataset.pushData` call: `links.slice(0, Math.max(0, RESULTS_WANTED -
saved)).length` (part_000 lines 553-554). -/
def hybridListSavePlan (resultsWanted saved links : Nat) : Nat :=
  min links (resultsWanted - saved)

/-- The commit of that batch: `saved += toPush.length` (part_000 line
559), which runs only after the awaited push resolves. -/
def hybridListCommit (saved toPush : Nat) : Nat := saved + toPush

/- ## Shared facts and fixtures for the claim theorems -/

def objKeys : JSVal → List String
  | .obj fs => fs.map (·.1)
  | _ => []

theorem jsOr_not_undef (w : JSVal) (hw : isUndefV w = false) (v : JSVal) :
    isUndefV (jsOr v w) = false := by
  simp only [jsOr]
  by_cases h : truthy v = true
  · rw [if_pos h]
    cases v with
    | undef => exact absurd h (by simp [truthy])
    | null => rfl
    | bool b => rfl
    | num n => rfl
    | str s => rfl
    | arr xs => rfl
    | obj fs => rfl
  · rw [if_neg h]
    exact hw

def cfgDefault : Cfg :=
  ⟨"", "", "", .undef, .undef, true, true, 100, 20, 20⟩

def st0 : HtmlState := ⟨0, 0, []⟩

/-- The block classifier as the specification words it (refinement
comparison definition): the signature phrases matched case-insensitively,
plus BLOCKED for any document shorter than the byte-length floor that
mentions both "javascript" and "browser". -/
def specClassifier (floor : Nat) (html : String) : Bool :=
  BLOCK_MARKERS.any (fun m => containsL m.toList (lowerStr html)) ||
    (decide (html.length < floor) &&
      containsL "javascript".toList (lowerStr html) &&
      containsL "browser".toList (lowerStr html))

def shortChallengeDoc : String :=
  "Please enable javascript in your browser to continue."

/-- C2 (counterexample): a 53-byte interstitial mentioning both
"javascript" and "browser" is BLOCKED under the specified classifier for
any byte-length floor above 53 (512 shown), but `isBlocked` — which has
no short-document heuristic at all — returns OK on it, while no marker
phrase occurs in it. -/
theorem isBlocked_short_doc_counterexample :
    specClassifier 512 shortChallengeDoc = true ∧
      isBlocked shortChallengeDoc = false := by
  constructor <;> rfl

/-- C2 (amended): the block classifier returns BLOCKED exactly when the
case-insensitively lowered document text contains one of the seven fixed
marker substrings; there is no additional short-document
javascript-and-browser heuristic. -/
theorem isBlocked_iff_marker (html : String) :
    isBlocked html = true ↔
      ∃ m ∈ BLOCK_MARKERS, containsL m.toList (lowerStr html) = true := by
  simp [isBlocked, List.any_eq_true]

/-- C3 (amended): in the Cheerio list and detail handlers the block
classification runs before any extraction: on a blocked document the list
handler only increments the blocked counter — no link is extracted or
offered and no next page is enqueued — and the detail handler (below its
target cap) only increments the blocked counter and pushes nothing. -/
theorem cheerio_handlers_block_before_extract (cfg : Cfg) (ps : ListPhase)
    (doc : ListDoc) (pageIdx : Nat) (base : String) (st : HtmlState)
    (ddoc : DetailDoc) (url now : String)
    (h1 : isBlocked doc.html = true) (h2 : isBlocked ddoc.html = true)
    (h3 : st.saved < cfg.maxItems) :
    cheerioListHandler cfg ps doc pageIdx base =
      ({ ps with hs := { ps.hs with blocked := ps.hs.blocked + 1 } }, none) ∧
    detailHandler cfg st ddoc url now =
      ({ st with blocked := st.blocked + 1 }, none, .blockedPage) := by
  constructor
  · simp only [cheerioListHandler]
    rw [if_pos h1]
  · simp only [detailHandler]
    rw [if_neg (by omega : ¬ cfg.maxItems ≤ st.saved), if_pos h2]

def blockedListDoc : ListDoc :=
  ⟨"Resuelve el CAPTCHA para continuar",
   [⟨some "/of-iabcd123", none⟩], none⟩

def blockedDetailDoc : DetailDoc :=
  ⟨"Resuelve el CAPTCHA para continuar", [], "", .undef, "", "", .undef,
   .undef, .null, .null, "", "", ""⟩

theorem cheerio_handlers_block_before_extract_witness :
    cheerioListHandler cfgDefault ⟨st0, [], []⟩ blockedListDoc 1
        "https://www.infojobs.net/ofertas-trabajo" =
      (⟨⟨0, 1, []⟩, [], []⟩, none) ∧
    detailHandler cfgDefault st0 blockedDetailDoc
        "https://www.infojobs.net/of-iabcd123" "2026-01-01T00:00:00.000Z" =
      (⟨0, 1, []⟩, none, .blockedPage) :=
  cheerio_handlers_block_before_extract cfgDefault ⟨st0, [], []⟩ blockedListDoc
    1 "https://www.infojobs.net/ofertas-trabajo" st0 blockedDetailDoc
    "https://www.infojobs.net/of-iabcd123" "2026-01-01T00:00:00.000Z"
    (by rfl) (by rfl) (by decide)

/-- C3 (counterexample): the Playwright list handler performs link
discovery with no block classification at all: on a document whose body
is a recognized block page (`isBlocked` is true), it still extracts the
job link and offers it to the frontier. -/
theorem playwright_no_block_check_counterexample :
    isBlocked blockedListDoc.html = true ∧
    (playwrightListHandler cfgDefault [] [] blockedListDoc
        "https://www.infojobs.net/ofertas-trabajo" 1).1.candidates =
      ["https://www.infojobs.net/of-iabcd123"] := by
  constructor <;> rfl

/-- C8 (amended, main pipeline): in the main HTTP detail handler a
document whose extraction yields no title is only logged and skipped — no
record is pushed, the state is unchanged, and the handler returns
normally (the `.skippedNoTitle` outcome), so the crawler, which retries
only thrown errors, never retries it. -/
theorem detail_no_title_skipped (cfg : Cfg) (st : HtmlState) (doc : DetailDoc)
    (url now : String)
    (h1 : st.saved < cfg.maxItems) (h2 : isBlocked doc.html = false)
    (h3 : truthy (getProp (extractJobFromDetail doc url now) "title") = false) :
    detailHandler cfg st doc url now = (st, none, .skippedNoTitle) := by
  simp only [detailHandler]
  rw [if_neg (by omega : ¬ cfg.maxItems ≤ st.saved)]
  rw [if_neg (by simp [h2] : ¬ isBlocked doc.html = true)]
  simp [h3]

def noTitleDoc : DetailDoc :=
  ⟨"<html><body>Oferta</body></html>", [], "", .undef, "", "", .undef,
   .undef, .null, .null, "", "", "Oferta"⟩

theorem detail_no_title_skipped_witness :
    detailHandler cfgDefault st0 noTitleDoc "https://www.infojobs.net/of-i1"
      "2026-01-01T00:00:00.000Z" = (st0, none, .skippedNoTitle) :=
  detail_no_title_skipped cfgDefault st0 noTitleDoc
    "https://www.infojobs.net/of-i1" "2026-01-01T00:00:00.000Z"
    (by decide) (by rfl) (by rfl)

def noTitleHybridDoc : HybridDoc :=
  ⟨"Oferta de empleo", [], "", "", "", "", "", "", "", "", "", "", none⟩

/-- C8 (counterexample): the DETAIL handler of the hybrid variant does not
treat a missing title as an extraction failure: on a document from which
extraction yields no title it still pushes a record (with `title: null`)
and increments the saved count, contradicting the claim that no record is
saved for such documents on every path. -/
theorem hybrid_detail_saves_null_title :
    hybridDetailHandler 100 0 noTitleHybridDoc
        "https://www.infojobs.net/of-i1" "" =
      .ok (1, some (JSVal.obj [
        ("title", .null), ("company", .null), ("category", .null),
        ("location", .null), ("salary", .null), ("job_type", .null),
        ("date_posted", .null), ("description_html", .null),
        ("description_text", .null),
        ("url", .str "https://www.infojobs.net/of-i1")])) := by
  rfl

/-- C1 (amended): every record built by `normalizeJobRecord` carries
exactly the fixed key set, with `company`, `location`, `province`,
`city`, `salary`, `job_type`, `date_posted`, `remote`,
`description_html` and `description_text` present-or-null (never the
undefined value that JSON serialization would drop), `source` always
present, and `scraped_at` always set to the capture time.  `url`, `id`
and `title`, however, are passed through from the input unchecked, so
they are not forced present or absolute by the normalizer. -/
theorem normalizeJobRecord_fixed_schema (job : JSVal) (now : String) :
    objKeys (normalizeJobRecord job now) =
      ["url", "id", "title", "company", "location", "province", "city",
       "salary", "job_type", "date_posted", "remote", "description_html",
       "description_text", "source", "scraped_at"] ∧
    isUndefV (getProp (normalizeJobRecord job now) "company") = false ∧
    isUndefV (getProp (normalizeJobRecord job now) "location") = false ∧
    isUndefV (getProp (normalizeJobRecord job now) "province") = false ∧
    isUndefV (getProp (normalizeJobRecord job now) "city") = false ∧
    isUndefV (getProp (normalizeJobRecord job now) "salary") = false ∧
    isUndefV (getProp (normalizeJobRecord job now) "job_type") = false ∧
    isUndefV (getProp (normalizeJobRecord job now) "date_posted") = false ∧
    isUndefV (getProp (normalizeJobRecord job now) "remote") = false ∧
    isUndefV (getProp (normalizeJobRecord job now) "description_html") = false ∧
    isUndefV (getProp (normalizeJobRecord job now) "description_text") = false ∧
    isUndefV (getProp (normalizeJobRecord job now) "source") = false ∧
    getProp (normalizeJobRecord job now) "scraped_at" = .str now := by
  refine ⟨rfl, ?_, ?_, ?_, ?_, ?_, ?_, ?_, ?_, ?_, ?_, ?_, rfl⟩
  · exact jsOr_not_undef .null rfl (getProp job "company")
  · exact jsOr_not_undef .null rfl (getProp job "location")
  · exact jsOr_not_undef .null rfl (getProp job "province")
  · exact jsOr_not_undef .null rfl (getProp job "city")
  · exact jsOr_not_undef .null rfl (getProp job "salary")
  · exact jsOr_not_undef .null rfl (getProp job "job_type")
  · exact jsOr_not_undef .null rfl (getProp job "date_posted")
  · exact jsOr_not_undef .null rfl (getProp job "remote")
  · exact jsOr_not_undef .null rfl (getProp job "description_html")
  · exact jsOr_not_undef .null rfl (getProp job "description_text")
  · exact jsOr_not_undef (.str "infojobs") rfl (getProp job "source")

def apiItemNoTitle : JSVal := .obj [("id", .str "offer1"), ("link", .str "of-irel123")]

/-- C1 (counterexample): the API harvesting path pushes a record for an
item that has an id and a link but no title — in the resulting record the
`title` key holds the undefined value (so the key is absent from the
serialized record) and the `url` is the link of the item verbatim, which is
not an absolute URL.  This contradicts the claim that every emitted
record has an absolute `url` and no absent schema key. -/
theorem api_record_title_absent_counterexample :
    (apiInner cfgDefault "2026-01-01T00:00:00.000Z" apiState0
        [(apiItemNoTitle, .obj [])]).pushed.map
        (fun r => (isUndefV (getProp r "title"), asStrV (getProp r "url"))) =
      [(true, some "of-irel123")] ∧
    parseUrlS "of-irel123" = none := by
  constructor <;> rfl

/-- C5: when the structured JSON-LD job posting supplies a non-empty
title and the DOM marker (the first h1) also supplies one, the extracted
title of the record is the structured-data value. -/
theorem extract_title_prefers_jsonld (doc : DetailDoc) (url now : String)
    (j : JSVal) (t : String)
    (hj : parseJsonLdJob doc.scripts = some j)
    (ht : getProp j "title" = .str t)
    (hne : t ≠ "")
    (hdom : trimS doc.h1 ≠ "") :
    getProp (extractJobFromDetail doc url now) "title" = .str t := by
  simp only [extractJobFromDetail, hj, Option.getD_some, ht]
  have hors : jsOr (JSVal.str t)
      (jsOr (JSVal.str (trimS doc.h1)) (jsOr doc.ogTitle .null)) = .str t := by
    simp [jsOr, truthy, hne]
  rw [hors]
  rfl

def jsonLdScriptObj : JSVal :=
  .obj [("@type", .str "JobPosting"),
        ("title", .str "Desarrollador Backend"),
        ("description", .str "<p>Puesto</p>"),
        ("hiringOrganization", .obj [("name", .str "Acme")]),
        ("datePosted", .str "2026-01-01")]

def jsonLdDoc : DetailDoc :=
  ⟨"<html></html>", [some jsonLdScriptObj], "Otro titulo", .undef, "", "",
   .undef, .undef, .null, .null, "", "", ""⟩

theorem extract_title_prefers_jsonld_witness :
    getProp (extractJobFromDetail jsonLdDoc
        "https://www.infojobs.net/of-i2" "2026-01-01T00:00:00.000Z") "title" =
      .str "Desarrollador Backend" :=
  extract_title_prefers_jsonld jsonLdDoc
    "https://www.infojobs.net/of-i2" "2026-01-01T00:00:00.000Z"
    (jsonLdFromItem jsonLdScriptObj) "Desarrollador Backend"
    (by rfl) (by rfl) (by decide) (by decide)

/-- C6: link normalization is idempotent — whenever normalization of some
href against a base produces a URL string (absolute, query stripped),
normalizing that output again yields the identical string. -/
theorem normalizeLink_idempotent (href base n : String)
    (h : normalizeLink href base = some n) : normalizeLink n base = some n :=
  normalizeLink_idem h

theorem normalizeLink_idempotent_witness :
    normalizeLink "https://www.infojobs.net/of-iabc123"
        "https://www.infojobs.net/ofertas-trabajo" =
      some "https://www.infojobs.net/of-iabc123" := by
  have h0 : normalizeLink "/of-iabc123?x=1&y=2"
      "https://www.infojobs.net/ofertas-trabajo" =
      some "https://www.infojobs.net/of-iabc123" := by rfl
  exact normalizeLink_idempotent "/of-iabc123?x=1&y=2"
    "https://www.infojobs.net/ofertas-trabajo"
    "https://www.infojobs.net/of-iabc123" h0

theorem nodupConcat {x : String} {l : List String} (hx : x ∉ l)
    (h : l.Nodup) : (l ++ [x]).Nodup := by
  induction l with
  | nil => simp
  | cons y ys ih =>
    rw [List.cons_append, List.nodup_cons]
    obtain ⟨hy, hys⟩ := List.nodup_cons.mp h
    refine ⟨?_, ih (fun hm => hx (List.mem_cons_of_mem _ hm)) hys⟩
    intro hmem
    rcases List.mem_append.mp hmem with hm | hm
    · exact hy hm
    · simp only [List.mem_singleton] at hm
      exact hx (by rw [← hm]; exact List.mem_cons_self y ys)

theorem offerLinks_nodup (d : Bool) (cap : Nat) :
    ∀ (links : List String) (st : OfferState),
      st.candidates.Nodup → (offerLinks d cap st links).candidates.Nodup := by
  intro links
  induction links with
  | nil => intro st h; exact h
  | cons link rest ih =>
    intro st h
    simp only [offerLinks]
    by_cases hc : cap ≤ st.candidates.length
    · rw [if_pos hc]; exact h
    · rw [if_neg hc]
      by_cases hd : d = true ∧ link ∈ st.seen
      · rw [if_pos hd]; exact ih st h
      · rw [if_neg hd]
        apply ih
        by_cases hm : link ∈ st.candidates
        · simpa [hm] using h
        · simp only [if_neg hm]
          exact nodupConcat hm h

theorem offerLinks_cap {d : Bool} {cap : Nat} {st : OfferState}
    (hc : cap ≤ st.candidates.length) (links : List String) :
    offerLinks d cap st links = st := by
  cases links with
  | nil => rfl
  | cons link rest =>
    simp only [offerLinks]
    rw [if_pos hc]

/-- C7: under the default dedup configuration the frontier offer loop
dispatches every detail URL at most once: an offer of a URL already in
the seen-set of the run leaves the frontier unchanged (the offer is rejected),
and from the initial empty state the candidate set the detail crawler is
later fed from never contains a URL twice. -/
theorem offer_dedup_single_dispatch :
    (∀ (cap : Nat) (st : OfferState) (u : String) (rest : List String),
      u ∈ st.seen →
      offerLinks true cap st (u :: rest) = offerLinks true cap st rest) ∧
    ∀ (cap : Nat) (links : List String),
      (offerLinks true cap ⟨[], []⟩ links).candidates.Nodup := by
  constructor
  · intro cap st u rest hmem
    by_cases hc : cap ≤ st.candidates.length
    · simp only [offerLinks]
      rw [if_pos hc, offerLinks_cap hc]
    · simp only [offerLinks]
      rw [if_neg hc, if_pos ⟨trivial, hmem⟩]
  · intro cap links
    exact offerLinks_nodup true cap links ⟨[], []⟩ (by simp)

theorem offer_dedup_single_dispatch_witness :
    offerLinks true 300
        ⟨["https://www.infojobs.net/of-iaaa1"], ["https://www.infojobs.net/of-iaaa1"]⟩
        ["https://www.infojobs.net/of-iaaa1"] =
      offerLinks true 300
        ⟨["https://www.infojobs.net/of-iaaa1"], ["https://www.infojobs.net/of-iaaa1"]⟩
        [] :=
  offer_dedup_single_dispatch.1 300
    ⟨["https://www.infojobs.net/of-iaaa1"], ["https://www.infojobs.net/of-iaaa1"]⟩
    "https://www.infojobs.net/of-iaaa1" [] (by decide)

theorem apiInner_saved_le (cfg : Cfg) (now : String) :
    ∀ (items : List (JSVal × JSVal)) (st : ApiState),
      st.saved ≤ cfg.maxItems →
      (apiInner cfg now st items).saved ≤ cfg.maxItems := by
  intro items
  induction items with
  | nil => intro st h; exact h
  | cons p rest ih =>
    intro st h
    rcases p with ⟨item, detailBody⟩
    simp only [apiInner]
    by_cases hc : cfg.maxItems ≤ st.saved
    · rw [if_pos hc]; exact h
    · rw [if_neg hc]
      by_cases hd : cfg.dedupe = true ∧
          (memJS (getProp item "id") st.seenIds ||
            memJS (getProp item "link") st.seenUrls) = true
      · rw [if_pos hd]; exact ih st h
      · rw [if_neg hd]
        apply ih
        have hlt : st.saved < cfg.maxItems := Nat.lt_of_not_le hc
        cases he : cfg.dedupe
        · simp [he]; omega
        · simp [he]; omega

theorem runApiHarvestM_saved_le (cfg : Cfg) (now : String) :
    ∀ (pages : List (List (JSVal × JSVal))) (page : Nat) (st : ApiState),
      st.saved ≤ cfg.maxItems →
      (runApiHarvestM cfg now page st pages).saved ≤ cfg.maxItems := by
  intro pages
  induction pages with
  | nil => intro page st h; exact h
  | cons items rest ih =>
    intro page st h
    simp only [runApiHarvestM]
    by_cases hc : cfg.maxItems ≤ st.saved ∨ cfg.maxPages < page
    · rw [if_pos hc]; exact h
    · rw [if_neg hc]
      by_cases he : items.isEmpty
      · rw [if_pos he]; exact h
      · rw [if_neg he]
        exact ih (page + 1) _ (apiInner_saved_le cfg now items st h)

/-- C9 (amended): the sequential API harvest never saves more than the
requested target, and the HTTP detail save path checks the target before
doing anything — once the saved count has reached the target the handler
is a no-op.  (The URL-only batch path of the hybrid variant is what keeps
the concurrent bound from holding; see the counterexample.) -/
theorem api_target_bound_and_detail_check :
    (∀ (cfg : Cfg) (now : String) (pages : List (List (JSVal × JSVal))),
      (runApiHarvest cfg now pages).saved ≤ cfg.maxItems) ∧
    ∀ (cfg : Cfg) (st : HtmlState) (doc : DetailDoc) (url now : String),
      cfg.maxItems ≤ st.saved →
      detailHandler cfg st doc url now = (st, none, .capReached) := by
  constructor
  · intro cfg now pages
    exact runApiHarvestM_saved_le cfg now pages 1 apiState0 (Nat.zero_le _)
  · intro cfg st doc url now h
    simp only [detailHandler]
    rw [if_pos h]

def cfgFive : Cfg := ⟨"", "", "", .undef, .undef, true, true, 5, 20, 20⟩

def stFive : HtmlState := ⟨5, 0, []⟩

theorem api_target_bound_and_detail_check_witness :
    (runApiHarvest cfgDefault "2026-01-01T00:00:00.000Z"
        [[(apiItemNoTitle, JSVal.obj [])]]).saved ≤ cfgDefault.maxItems ∧
    detailHandler cfgFive stFive noTitleDoc "https://www.infojobs.net/of-i1"
        "2026-01-01T00:00:00.000Z" = (stFive, none, .capReached) :=
  ⟨api_target_bound_and_detail_check.1 cfgDefault "2026-01-01T00:00:00.000Z"
      [[(apiItemNoTitle, JSVal.obj [])]],
   api_target_bound_and_detail_check.2 cfgFive stFive noTitleDoc
      "https://www.infojobs.net/of-i1" "2026-01-01T00:00:00.000Z" (by decide)⟩

/-- C9 (counterexample): in the hybrid variant the URL-only batch path
violates the concurrent bound T + (max concurrency − 1).  Two LIST
handlers (out of up to 10 concurrent ones) each observe saved = 0, each
plan a batch of min(links, T − saved) = 100 URL records before their
awaited `Dataset.pushData` resolves, and then both commit: with the
default target T = 100 and 100 job links per page the final saved count
is 200, exceeding 100 + (10 − 1) = 109. -/
theorem hybrid_batch_overshoot_counterexample :
    hybridListCommit (hybridListCommit 0 (hybridListSavePlan 100 0 100))
        (hybridListSavePlan 100 0 100) = 200 ∧
      100 + (hybridMaxConcurrency - 1) < 200 := by
  constructor <;> decide

theorem map_noop_param {k v : List Char} :
    ∀ {rest : List (List Char × List Char)}, (∀ p ∈ rest, ¬ p.1 = k) →
      rest.map (fun p => if p.1 = k then (p.1, v) else p) = rest := by
  intro rest
  induction rest with
  | nil => intro _; rfl
  | cons p t ih =>
    intro h
    simp only [List.map_cons]
    rw [if_neg (h p (List.mem_cons_self p t)),
      ih (fun q hq => h q (List.mem_cons_of_mem _ hq))]

theorem filter_noop {k : List Char} :
    ∀ {rest : List (List Char × List Char)}, (∀ p ∈ rest, ¬ p.1 = k) →
      rest.filter (fun p => !decide (p.1 = k)) = rest := by
  intro rest
  induction rest with
  | nil => intro _; rfl
  | cons p t ih =>
    intro h
    rw [List.filter_cons]
    rw [if_pos (by simpa using h p (List.mem_cons_self p t))]
    rw [ih (fun q hq => h q (List.mem_cons_of_mem _ hq))]

theorem searchSet_eq_map {q : List (List Char × List Char)} {k v : List Char}
    (h : q.countP (fun p => decide (p.1 = k)) = 1) :
    searchSet q k v = q.map (fun p => if p.1 = k then (p.1, v) else p) := by
  induction q with
  | nil => simp at h
  | cons p rest ih =>
    rcases p with ⟨k1, v1⟩
    by_cases hk : k1 = k
    · subst hk
      have hrest : rest.countP (fun p => decide (p.1 = k1)) = 0 := by
        rw [List.countP_cons] at h
        have hd : (decide ((k1, v1).1 = k1)) = true := by simp
        rw [hd, if_pos rfl] at h
        omega
      have hnone : ∀ p ∈ rest, ¬ p.1 = k1 := by
        intro p hp
        have h0 := List.countP_eq_zero.mp hrest p hp
        simpa using h0
      show (if k1 = k1 then (k1, v) :: rest.filter (fun p => !decide (p.1 = k1))
          else (k1, v1) :: searchSet rest k1 v) = _
      rw [if_pos rfl, List.map_cons, if_pos rfl, filter_noop hnone,
        map_noop_param hnone]
    · have h2 : rest.countP (fun p => decide (p.1 = k)) = 1 := by
        rw [List.countP_cons] at h
        have hd : (decide ((k1, v1).1 = k)) = false := by simp [hk]
        rw [hd, if_neg Bool.false_ne_true] at h
        omega
      show (if k1 = k then (k, v) :: rest.filter (fun p => !decide (p.1 = k))
          else (k1, v1) :: searchSet rest k v) = _
      rw [if_neg hk, List.map_cons, if_neg hk, ih h2]

/-- The query list with the value of the single `page` parameter replaced by
"4" and every other pair untouched — the expected result of the
pagination synthesis on a `page=3` URL. -/
def bumpPageTo4 (q : List (List Char × List Char)) :
    List (List Char × List Char) :=
  q.map (fun p => if p.1 = "page".toList then (p.1, "4".toList) else p)

/-- C4: on a list page with no "next page" affordance whose URL carries
the query parameter `page=3` (exactly once), both pagination synthesizers
(the main Cheerio one and the one of the hybrid variant) produce the same URL with
`page=4` and every other query parameter — and every other URL component
— unchanged. -/
theorem findNextPage_increments_page (doc : ListDoc) (u : UrlM)
    (hdoc : doc.nextHref = none) (hwf : wfUrl u = true)
    (hcount : u.query.countP (fun p => decide (p.1 = "page".toList)) = 1)
    (hget : searchGet u.query "page".toList = some "3".toList) :
    findNextPageCheerio doc (urlHrefS u) =
      some (urlHrefS { u with query := bumpPageTo4 u.query }) ∧
    findNextPageHybrid doc (urlHrefS u) =
      some (urlHrefS { u with query := bumpPageTo4 u.query }) := by
  have hparse : parseUrlS (urlHrefS u) = some u := parseUrl_href hwf
  have hset : searchSet u.query "page".toList "4".toList = bumpPageTo4 u.query :=
    searchSet_eq_map hcount
  have hnext : nextPageUrl u = { u with query := bumpPageTo4 u.query } := by
    simp only [nextPageUrl, hget]
    exact congrArg (fun q => { u with query := q }) hset
  have hnextH : nextPageUrlHybrid u = { u with query := bumpPageTo4 u.query } := by
    simp only [nextPageUrlHybrid, hget]
    exact congrArg (fun q => { u with query := q }) hset
  constructor
  · simp only [findNextPageCheerio, hdoc, hparse, hnext]
  · simp only [findNextPageHybrid, hdoc, hparse, Option.map_some', hnextH]

def pageDoc : ListDoc := ⟨"<html></html>", [], none⟩

def pageUrl : UrlM :=
  ⟨"https".toList, "www.infojobs.net".toList, "list".toList,
   [("q".toList, "dev".toList), ("page".toList, "3".toList)], none⟩

theorem findNextPage_increments_page_witness :
    findNextPageCheerio pageDoc "https://www.infojobs.net/list?q=dev&page=3" =
      some "https://www.infojobs.net/list?q=dev&page=4" ∧
    findNextPageHybrid pageDoc "https://www.infojobs.net/list?q=dev&page=3" =
      some "https://www.infojobs.net/list?q=dev&page=4" := by
  have h := findNextPage_increments_page pageDoc pageUrl rfl (by decide)
    (by decide) (by decide)
  have e1 : urlHrefS pageUrl = "https://www.infojobs.net/list?q=dev&page=3" := by
    rfl
  have e2 : urlHrefS { pageUrl with query := bumpPageTo4 pageUrl.query } =
      "https://www.infojobs.net/list?q=dev&page=4" := by
    rfl
  rw [← e1, ← e2]
  exact h

theorem toAbs_parseable {h b a : String} (e : toAbs h b = some a) :
    (parseUrlS a).isSome = true := by
  simp only [toAbs] at e
  rcases eB : parseUrlS b with _ | B
  · rw [eB] at e
    exact Option.noConfusion e
  · rw [eB] at e
    rcases eu : parseUrlL h.toList with _ | u
    · rw [eu] at e
      have ha := Option.some.inj e
      rw [← ha]
      have hwf : wfUrl (resolveRel h.toList B) = true :=
        resolveRel_wf (parseUrl_wf eB)
      have : parseUrlS (urlHrefS (resolveRel h.toList B)) =
          some (resolveRel h.toList B) := parseUrl_href hwf
      rw [this]
      rfl
    · rw [eu] at e
      have ha := Option.some.inj e
      rw [← ha]
      have hwf : wfUrl u = true := parseUrl_wf eu
      have : parseUrlS (urlHrefS u) = some u := parseUrl_href hwf
      rw [this]
      rfl

theorem parseUrlS_https_append (s : String) :
    (parseUrlS ("https://" ++ s)).isSome = true := by
  have e : ("https://" ++ s).toList =
      "https".toList ++ ':' :: ('/' :: '/' :: s.toList) := rfl
  have e2 : parseUrlS ("https://" ++ s) =
      parseUrlL ("https".toList ++ ':' :: ('/' :: '/' :: s.toList)) := by
    rw [show parseUrlS ("https://" ++ s) =
      parseUrlL (("https://" ++ s).toList) from rfl, e]
  rw [e2]
  simp only [parseUrlL, splitFirst_append (by decide : ':' ∉ "https".toList)]
  rw [if_pos ⟨by simp [leadsWith], by decide⟩]
  rfl

theorem seo_parseable (k l c : String) :
    (parseUrlS (buildSeoSearchUrl k l c)).isSome = true := by
  have base_eq : ("https://www.infojobs.net/ofertas-trabajo" : String) =
      "https://" ++ "www.infojobs.net/ofertas-trabajo" := rfl
  simp only [buildSeoSearchUrl]
  split_ifs
  · rw [base_eq]
    simp only [String.append_assoc]
    exact parseUrlS_https_append _
  · rw [base_eq]
    simp only [String.append_assoc]
    exact parseUrlS_https_append _
  · rw [base_eq]
    simp only [String.append_assoc]
    exact parseUrlS_https_append _
  · rw [base_eq]
    exact parseUrlS_https_append _

theorem addIfValid_mem {urls : List String} {raw : JSVal} {x : String}
    (h : x ∈ addIfValid urls raw) :
    x ∈ urls ∨ (parseUrlS x).isSome = true := by
  simp only [addIfValid] at h
  by_cases h1 : truthy raw = false
  · rw [if_pos h1] at h
    exact Or.inl h
  · rw [if_neg h1] at h
    by_cases h2 : truthy (rawUrlVal raw) = false
    · rw [if_pos h2] at h
      exact Or.inl h
    · rw [if_neg h2] at h
      rcases e : toAbs (jsToString (rawUrlVal raw))
          "https://www.infojobs.net" with _ | abs
      · rw [e] at h
        exact Or.inl h
      · rw [e] at h
        rcases List.mem_append.mp h with hm | hm
        · exact Or.inl hm
        · simp only [List.mem_singleton] at hm
          exact Or.inr (hm ▸ toAbs_parseable e)

theorem mem_foldl_addIfValid :
    ∀ (xs : List JSVal) (acc : List String) (x : String),
      x ∈ xs.foldl addIfValid acc →
      x ∈ acc ∨ (parseUrlS x).isSome = true := by
  intro xs
  induction xs with
  | nil => intro acc x h; exact Or.inl h
  | cons y ys ih =>
    intro acc x h
    simp only [List.foldl_cons] at h
    rcases ih (addIfValid acc y) x h with hm | hp
    · rcases addIfValid_mem hm with hm2 | hp2
      · exact Or.inl hm2
      · exact Or.inr hp2
    · exact Or.inr hp

theorem mem_ite_append {P : Prop} [Decidable P] {l : List String}
    {g x : String} (h : x ∈ (if P then l ++ [g] else l)) : x ∈ l ∨ x = g := by
  by_cases hp : P
  · rw [if_pos hp] at h
    rcases List.mem_append.mp h with hm | hm
    · exact Or.inl hm
    · simp only [List.mem_singleton] at hm
      exact Or.inr hm
  · rw [if_neg hp] at h
    exact Or.inl h

theorem last_step_ne_nil (l : List String) (g : String) :
    (if l = [] then l ++ [g] else l) ≠ [] := by
  by_cases h : l = []
  · rw [if_pos h, h]
    simp
  · rw [if_neg h]
    exact h

/-- C10: the seed-URL builder never returns an empty list and every URL
it returns is absolute (accepted by the URL parser): explicit seeds are
resolved against the site origin and kept only when valid, a
keyword/location configuration yields the SEO search URL, and the empty
configuration falls back to the generic listings page. -/
theorem buildStartUrls_nonempty_absolute (cfg : Cfg) :
    buildStartUrls cfg ≠ [] ∧
      ∀ x ∈ buildStartUrls cfg, (parseUrlS x).isSome = true := by
  constructor
  · simp only [buildStartUrls]
    exact dedupKeepFirst_ne_nil (last_step_ne_nil _ _)
  · intro x hx
    simp only [buildStartUrls] at hx
    rw [mem_dedupKeepFirst] at hx
    rcases mem_ite_append hx with hx2 | hgen
    · rcases mem_ite_append hx2 with hx3 | hseo
      · rcases addIfValid_mem hx3 with hx4 | hp
        · rcases e : cfg.startUrls with _ | _ | b | n | s | xs | fs
          all_goals rw [e] at hx4
          case arr =>
            rcases mem_foldl_addIfValid xs [] x hx4 with hm | hp2
            · simp at hm
            · exact hp2
          all_goals simp at hx4
        · exact hp
      · rw [hseo]
        exact seo_parseable cfg.keyword cfg.location cfg.category
    · rw [hgen]
      rfl

def cfgEmptyInput : Cfg := cfgDefault

theorem buildStartUrls_nonempty_absolute_witness :
    buildStartUrls cfgEmptyInput ≠ [] ∧
      (parseUrlS "https://www.infojobs.net/ofertas-trabajo").isSome = true :=
  ⟨(buildStartUrls_nonempty_absolute cfgEmptyInput).1,
   (buildStartUrls_nonempty_absolute cfgEmptyInput).2
     "https://www.infojobs.net/ofertas-trabajo" (by decide)⟩
